import Mathlib

/-!
# Beacon Cinema → Google Calendar: verification of the Schedule Reconciliation Engine

A shallow embedding of the reconciliation engine of the
Beacon-Cinema-To-Google-Calendar repository, together with proofs of the
spec's testable properties.

JavaScript strings are modelled as `List Char` (`JsString`).  The embedding is
ASCII-faithful: JS `toLowerCase` / `toUpperCase` / `trim` / `\s` act on the
full Unicode tables, while the model implements exactly their ASCII portion,
which is the alphabet all inputs of interest (titles, dates, times, runtime
texts) are drawn from.

Sources embedded here:
- `src/updateGCal.js`   — `formatString`, the schedule-row merge loop,
  `deleteUpcomingEvents`, and the event-insertion loop of `connectToCalendar`;
- `src/utils.js`        — `deduplicateRows`, `navigateWithRetry`;
- `src/beaconSchedule.js` — `normalizeTitle`.
-/

/-- A JavaScript string, modelled as its list of characters. -/
abbrev JsString := List Char

/-- ASCII portion of the JS whitespace class (used by `String.prototype.trim`
and by `\s` in regexes): space, tab, LF, VT, FF, CR. -/
def isJsSpace (c : Char) : Bool :=
  c.toNat = 32 || c.toNat = 9 || c.toNat = 10 || c.toNat = 11 ||
  c.toNat = 12 || c.toNat = 13

/-- ASCII `[a-zA-Z]`, the character class used by `formatString`'s regex. -/
def isAsciiLetter (c : Char) : Bool :=
  (65 ≤ c.toNat && c.toNat ≤ 90) || (97 ≤ c.toNat && c.toNat ≤ 122)

/-- ASCII `[0-9]`, the `\d` class. -/
def isAsciiDigit (c : Char) : Bool := 48 ≤ c.toNat && c.toNat ≤ 57

/-- JS `toLowerCase`, ASCII portion: `A`-`Z` shift by 32, all else unchanged. -/
def jsLower (c : Char) : Char :=
  if 65 ≤ c.toNat ∧ c.toNat ≤ 90 then Char.ofNat (c.toNat + 32) else c

/-- JS `toUpperCase`, ASCII portion: `a`-`z` shift by 32, all else unchanged. -/
def jsUpper (c : Char) : Char :=
  if 97 ≤ c.toNat ∧ c.toNat ≤ 122 then Char.ofNat (c.toNat - 32) else c

/-- `str.toLowerCase()` over a whole string. -/
def jsToLowerCase (s : JsString) : JsString := s.map jsLower

/-- `str.replace(/^"|"$/g, '')`, first half: drop one leading `"` if present. -/
def stripLeadQuote : JsString → JsString
  | '"' :: t => t
  | s => s

/-- `str.replace(/^"|"$/g, '')`, second half: drop one trailing `"` if present. -/
def stripTrailQuote (s : JsString) : JsString :=
  if s.getLast? = some '"' then s.dropLast else s

/-- `str.replace(/^"|"$/g, '')`: strip a single pair of leading/trailing
double quotes (each independently, if present). -/
def stripQuotes (s : JsString) : JsString := stripTrailQuote (stripLeadQuote s)

/-- `str.trim()` from the left (ASCII whitespace). -/
def trimLeft (s : JsString) : JsString := s.dropWhile isJsSpace

/-- `str.trim()` from the right (ASCII whitespace). -/
def trimRight (s : JsString) : JsString := (s.reverse.dropWhile isJsSpace).reverse

/-- `str.trim()` (ASCII whitespace). -/
def jsTrim (s : JsString) : JsString := trimRight (trimLeft s)

/-- `normalizeTitle` from `src/beaconSchedule.js`:
`title => title.replace(/^"|"$/g, '').trim().toLowerCase()`. -/
def normalizeTitle (s : JsString) : JsString := jsToLowerCase (jsTrim (stripQuotes s))

/-! ## Character-level facts -/

theorem char_toNat_ofNat (n : Nat) (h : n < 0xd800) : (Char.ofNat n).toNat = n := by
  unfold Char.ofNat
  rw [dif_pos (Or.inl h)]
  rfl

theorem jsLower_toNat_of_upper (c : Char) (h : 65 ≤ c.toNat ∧ c.toNat ≤ 90) :
    (jsLower c).toNat = c.toNat + 32 := by
  unfold jsLower
  rw [if_pos h]
  exact char_toNat_ofNat _ (by omega)

theorem jsLower_eq_of_not_upper (c : Char) (h : ¬(65 ≤ c.toNat ∧ c.toNat ≤ 90)) :
    jsLower c = c := by
  unfold jsLower
  rw [if_neg h]

theorem jsLower_idem (c : Char) : jsLower (jsLower c) = jsLower c := by
  by_cases h : 65 ≤ c.toNat ∧ c.toNat ≤ 90
  · refine jsLower_eq_of_not_upper _ ?_
    have := jsLower_toNat_of_upper c h
    omega
  · rw [jsLower_eq_of_not_upper c h, jsLower_eq_of_not_upper c h]

theorem isJsSpace_jsLower (c : Char) : isJsSpace (jsLower c) = isJsSpace c := by
  by_cases h : 65 ≤ c.toNat ∧ c.toNat ≤ 90
  · have h2 := jsLower_toNat_of_upper c h
    have hA : isJsSpace (jsLower c) = false := by
      simp only [isJsSpace, h2, Bool.or_eq_false_iff, decide_eq_false_iff_not]
      omega
    have hB : isJsSpace c = false := by
      simp only [isJsSpace, Bool.or_eq_false_iff, decide_eq_false_iff_not]
      omega
    rw [hA, hB]
  · rw [jsLower_eq_of_not_upper c h]

theorem jsLower_ne_quote (c : Char) (h : c ≠ '"') : jsLower c ≠ '"' := by
  intro he
  by_cases hu : 65 ≤ c.toNat ∧ c.toNat ≤ 90
  · have h2 := jsLower_toNat_of_upper c hu
    rw [he] at h2
    have h34 : ('"').toNat = 34 := by decide
    omega
  · rw [jsLower_eq_of_not_upper c hu] at he
    exact h he

/-! ## List-level trimming facts -/

theorem dropWhile_idem (p : Char → Bool) (l : JsString) :
    (l.dropWhile p).dropWhile p = l.dropWhile p := by
  induction l with
  | nil => rfl
  | cons c t ih =>
    by_cases h : p c
    · simp [List.dropWhile_cons, h, ih]
    · simp [List.dropWhile_cons, h]

theorem dropWhile_map_comm (f : Char → Char) (p : Char → Bool)
    (hp : ∀ c, p (f c) = p c) (l : JsString) :
    (l.map f).dropWhile p = (l.dropWhile p).map f := by
  induction l with
  | nil => rfl
  | cons c t ih =>
    by_cases h : p c
    · simp [List.dropWhile_cons, hp, h, ih]
    · simp [List.dropWhile_cons, hp, h]

theorem trimLeft_map (f : Char → Char) (hp : ∀ c, isJsSpace (f c) = isJsSpace c)
    (l : JsString) : trimLeft (l.map f) = (trimLeft l).map f :=
  dropWhile_map_comm f isJsSpace hp l

theorem trimRight_map (f : Char → Char) (hp : ∀ c, isJsSpace (f c) = isJsSpace c)
    (l : JsString) : trimRight (l.map f) = (trimRight l).map f := by
  unfold trimRight
  rw [← List.map_reverse, dropWhile_map_comm f isJsSpace hp, List.map_reverse]

theorem trimLeft_idem (l : JsString) : trimLeft (trimLeft l) = trimLeft l :=
  dropWhile_idem isJsSpace l

theorem trimRight_idem (l : JsString) : trimRight (trimRight l) = trimRight l := by
  unfold trimRight
  rw [List.reverse_reverse, dropWhile_idem]

/-- `trimRight` yields a prefix of its argument. -/
theorem trimRight_prefix (l : JsString) : trimRight l <+: l := by
  unfold trimRight
  have h : l.reverse.dropWhile isJsSpace <:+ l.reverse := List.dropWhile_suffix _
  have h2 := h.reverse
  simpa using h2

/-- A head character failing `isJsSpace` is preserved by `trimLeft`. -/
theorem trimLeft_eq_self_of_head (l : JsString) (h : ∀ c, l.head? = some c → isJsSpace c = false) :
    trimLeft l = l := by
  cases l with
  | nil => rfl
  | cons c t =>
    have := h c rfl
    simp [trimLeft, List.dropWhile_cons, this]

/-- `trimLeft` produces `[]` or a head failing `isJsSpace`. -/
theorem head_trimLeft (l : JsString) (c : Char) (h : (trimLeft l).head? = some c) :
    isJsSpace c = false := by
  induction l with
  | nil => simp [trimLeft] at h
  | cons d t ih =>
    by_cases hd : isJsSpace d
    · exact ih (by simpa [trimLeft, List.dropWhile_cons, hd] using h)
    · simp [trimLeft, List.dropWhile_cons, hd] at h
      subst h
      simpa using hd

theorem trimLeft_trimRight_trimLeft (l : JsString) :
    trimLeft (trimRight (trimLeft l)) = trimRight (trimLeft l) := by
  apply trimLeft_eq_self_of_head
  intro c hc
  obtain ⟨t, ht⟩ := trimRight_prefix (trimLeft l)
  apply head_trimLeft l
  rw [← ht]
  cases h : trimRight (trimLeft l) with
  | nil => rw [h] at hc; simp at hc
  | cons a s =>
    rw [h] at hc
    simp at hc
    simp [hc]

theorem map_jsLower_idem (l : JsString) :
    (l.map jsLower).map jsLower = l.map jsLower := by
  rw [List.map_map]
  exact List.map_congr_left fun c _ => jsLower_idem c

theorem stripLeadQuote_eq_self (l : JsString) (h : l.head? ≠ some '"') :
    stripLeadQuote l = l := by
  cases l with
  | nil => rfl
  | cons c t =>
    by_cases hc : c = '"'
    · subst hc; simp at h
    · unfold stripLeadQuote
      split
      · rename_i heq
        rw [List.cons.injEq] at heq
        exact absurd heq.1 hc
      · rfl

theorem stripTrailQuote_eq_self (l : JsString) (h : l.getLast? ≠ some '"') :
    stripTrailQuote l = l := by
  unfold stripTrailQuote
  rw [if_neg h]

theorem jsTrim_normalized (x : JsString) :
    jsTrim (jsToLowerCase (jsTrim x)) = jsToLowerCase (jsTrim x) := by
  unfold jsTrim jsToLowerCase
  have h1 : trimLeft ((trimRight (trimLeft x)).map jsLower)
      = (trimRight (trimLeft x)).map jsLower := by
    rw [trimLeft_map jsLower isJsSpace_jsLower, trimLeft_trimRight_trimLeft]
  rw [h1, trimRight_map jsLower isJsSpace_jsLower, trimRight_idem]

theorem stripQuotes_eq_self (l : JsString) (h1 : l.head? ≠ some '"')
    (h2 : l.getLast? ≠ some '"') : stripQuotes l = l := by
  unfold stripQuotes
  rw [stripLeadQuote_eq_self l h1, stripTrailQuote_eq_self l h2]

/-- C7 counterexample: `normalizeTitle` is not idempotent on the title `""a""`
(a title wrapped in two pairs of quotes).  One pass strips only the outer pair,
yielding `"a"`; a second pass strips the remaining pair, yielding `a`. -/
theorem c7_counterexample :
    normalizeTitle ("\"\"a\"\"".data) = "\"a\"".data ∧
    normalizeTitle (normalizeTitle ("\"\"a\"\"".data)) = "a".data ∧
    normalizeTitle (normalizeTitle ("\"\"a\"\"".data)) ≠ normalizeTitle ("\"\"a\"\"".data) := by
  refine ⟨by decide, by decide, by decide⟩

/-- C7 (amended): `normalizeTitle` — strip a single pair of leading/trailing
quotes, trim, lower-case — is idempotent on every title whose normalized form
neither starts nor ends with a quote character (one application can expose a
further quote pair, which a second application would also strip); in particular
`normalizeTitle '"Foo"' = normalizeTitle 'Foo' = "foo"`. -/
theorem c7_normalize_idempotence :
    (∀ t : JsString, (normalizeTitle t).head? ≠ some '"' →
      (normalizeTitle t).getLast? ≠ some '"' →
      normalizeTitle (normalizeTitle t) = normalizeTitle t) ∧
    normalizeTitle ("\"Foo\"".data) = "foo".data ∧
    normalizeTitle ("Foo".data) = "foo".data := by
  refine ⟨?_, by decide, by decide⟩
  intro t h1 h2
  show jsToLowerCase (jsTrim (stripQuotes (normalizeTitle t))) = normalizeTitle t
  rw [stripQuotes_eq_self _ h1 h2]
  show jsToLowerCase (jsTrim (jsToLowerCase (jsTrim (stripQuotes t))))
      = jsToLowerCase (jsTrim (stripQuotes t))
  rw [jsTrim_normalized]
  exact map_jsLower_idem _

/-- C7 witness: the idempotence theorem applied at the concrete title `Foo`. -/
theorem c7_witness :
    normalizeTitle (normalizeTitle ("Foo".data)) = normalizeTitle ("Foo".data) :=
  c7_normalize_idempotence.1 ("Foo".data) (by decide) (by decide)

/-! ## `formatString` (src/updateGCal.js lines 48-70) -/

/-- `[...word].findIndex(char => char.match(/[a-zA-Z]/))`: index of the first
ASCII letter of a token, if any. -/
def firstLetterIdx : JsString → Option Nat
  | [] => none
  | c :: rest => if isAsciiLetter c then some 0 else (firstLetterIdx rest).map (· + 1)

/-- The per-token map of `formatString`: upper-case the first letter,
lower-case everything after it, preserve the prefix before it verbatim;
a token with no letter is returned unchanged. -/
def formatWord (w : JsString) : JsString :=
  match firstLetterIdx w with
  | none => w
  | some i => w.take i ++ jsUpper (w.getD i ' ') :: (w.drop (i + 1)).map jsLower

/-- `str.split(' ')`: split on single spaces (JS keeps empty fragments). -/
def splitOnSpace : JsString → List JsString
  | [] => [[]]
  | c :: rest =>
    if c = ' ' then [] :: splitOnSpace rest
    else
      match splitOnSpace rest with
      | [] => [[c]]
      | t :: ts => (c :: t) :: ts

/-- `arr.join(' ')`. -/
def joinSpace : List JsString → JsString
  | [] => []
  | [w] => w
  | w :: ws => w ++ ' ' :: joinSpace ws

/-- `formatString` from `src/updateGCal.js`: strip one pair of surrounding
quotes, split on spaces, title-case each token, re-join with spaces. -/
def formatString (s : JsString) : JsString :=
  joinSpace ((splitOnSpace (stripQuotes s)).map formatWord)

/-- Splitting on the whole JS whitespace class — the reading of
"whitespace-delimited token" in the claim; `formatString` itself splits on
`' '` only. -/
def splitOnWs : JsString → List JsString
  | [] => [[]]
  | c :: rest =>
    if isJsSpace c then [] :: splitOnWs rest
    else
      match splitOnWs rest with
      | [] => [[c]]
      | t :: ts => (c :: t) :: ts

/-! ## Facts about splitting and joining -/

theorem splitOnSpace_ne_nil (s : JsString) : splitOnSpace s ≠ [] := by
  cases s with
  | nil => simp [splitOnSpace]
  | cons c rest =>
    by_cases h : c = ' '
    · simp [splitOnSpace, h]
    · simp only [splitOnSpace, if_neg h]
      cases splitOnSpace rest <;> simp

theorem splitOnSpace_no_space (s : JsString) (w : JsString) (hw : w ∈ splitOnSpace s) :
    ' ' ∉ w := by
  induction s generalizing w with
  | nil =>
    simp [splitOnSpace] at hw
    simp [hw]
  | cons c rest ih =>
    by_cases h : c = ' '
    · simp only [splitOnSpace, if_pos h, List.mem_cons] at hw
      rcases hw with hw | hw
      · simp [hw]
      · exact ih w hw
    · simp only [splitOnSpace, if_neg h] at hw
      cases hsp : splitOnSpace rest with
      | nil => exact absurd hsp (splitOnSpace_ne_nil rest)
      | cons t ts =>
        rw [hsp] at hw
        simp only [List.mem_cons] at hw
        rcases hw with hw | hw
        · subst hw
          intro hmem
          rcases List.mem_cons.mp hmem with h1 | h1
          · exact h h1.symm
          · exact ih t (by rw [hsp]; exact List.mem_cons_self t ts) h1
        · exact ih w (by rw [hsp]; exact List.mem_cons_of_mem t hw)

theorem splitOnSpace_of_no_space (w : JsString) (h : ' ' ∉ w) :
    splitOnSpace w = [w] := by
  induction w with
  | nil => rfl
  | cons c rest ih =>
    have hc : c ≠ ' ' := fun he => h (he ▸ List.mem_cons_self c rest)
    have hr : ' ' ∉ rest := fun hm => h (List.mem_cons_of_mem c hm)
    simp only [splitOnSpace, if_neg hc, ih hr]

theorem splitOnSpace_append_space (w t : JsString) (h : ' ' ∉ w) :
    splitOnSpace (w ++ ' ' :: t) = w :: splitOnSpace t := by
  induction w with
  | nil => simp [splitOnSpace]
  | cons c rest ih =>
    have hc : c ≠ ' ' := fun he => h (he ▸ List.mem_cons_self c rest)
    have hr : ' ' ∉ rest := fun hm => h (List.mem_cons_of_mem c hm)
    simp only [List.cons_append, splitOnSpace, if_neg hc]
    rw [show rest.append (' ' :: t) = rest ++ ' ' :: t from rfl, ih hr]

theorem splitOnSpace_joinSpace (ws : List JsString) (hne : ws ≠ [])
    (h : ∀ w ∈ ws, ' ' ∉ w) : splitOnSpace (joinSpace ws) = ws := by
  induction ws with
  | nil => exact absurd rfl hne
  | cons w ws ih =>
    cases ws with
    | nil =>
      show splitOnSpace (joinSpace [w]) = [w]
      exact splitOnSpace_of_no_space w (h w (List.mem_cons_self w []))
    | cons w2 ws2 =>
      show splitOnSpace (w ++ ' ' :: joinSpace (w2 :: ws2)) = w :: w2 :: ws2
      rw [splitOnSpace_append_space w _ (h w (List.mem_cons_self _ _))]
      rw [ih (by simp) (fun x hx => h x (List.mem_cons_of_mem w hx))]

/-! ## Facts about `firstLetterIdx` and `formatWord` -/

theorem firstLetterIdx_none (w : JsString) (h : ∀ c ∈ w, isAsciiLetter c = false) :
    firstLetterIdx w = none := by
  induction w with
  | nil => rfl
  | cons c rest ih =>
    have hc := h c (List.mem_cons_self c rest)
    simp only [firstLetterIdx, hc, if_false]
    rw [ih (fun x hx => h x (List.mem_cons_of_mem c hx))]
    rfl

theorem firstLetterIdx_some (w : JsString) (j : Nat) (hj : j < w.length)
    (hlet : isAsciiLetter (w.getD j ' ') = true)
    (hbefore : ∀ k, k < j → isAsciiLetter (w.getD k ' ') = false) :
    firstLetterIdx w = some j := by
  induction w generalizing j with
  | nil => simp at hj
  | cons c rest ih =>
    cases j with
    | zero =>
      simp only [List.getD_cons_zero] at hlet
      simp [firstLetterIdx, hlet]
    | succ j =>
      have hc : isAsciiLetter c = false := by
        have := hbefore 0 (Nat.succ_pos j)
        simpa using this
      simp only [firstLetterIdx, hc, if_false]
      rw [ih j (by simpa using hj) (by simpa using hlet)
        (fun k hk => by simpa using hbefore (k + 1) (Nat.succ_lt_succ hk))]
      rfl

theorem jsUpper_ne_space (c : Char) (h : c ≠ ' ') : jsUpper c ≠ ' ' := by
  intro he
  by_cases hl : 97 ≤ c.toNat ∧ c.toNat ≤ 122
  · have : (jsUpper c).toNat = c.toNat - 32 := by
      unfold jsUpper
      rw [if_pos hl]
      exact char_toNat_ofNat _ (by omega)
    rw [he] at this
    have h32 : (' ').toNat = 32 := by decide
    omega
  · unfold jsUpper at he
    rw [if_neg hl] at he
    exact h he

theorem jsLower_ne_space (c : Char) (h : c ≠ ' ') : jsLower c ≠ ' ' := by
  intro he
  by_cases hu : 65 ≤ c.toNat ∧ c.toNat ≤ 90
  · have h2 := jsLower_toNat_of_upper c hu
    rw [he] at h2
    have h32 : (' ').toNat = 32 := by decide
    omega
  · rw [jsLower_eq_of_not_upper c hu] at he
    exact h he

theorem firstLetterIdx_lt_length (w : JsString) (i : Nat) (h : firstLetterIdx w = some i) :
    i < w.length := by
  induction w generalizing i with
  | nil => simp [firstLetterIdx] at h
  | cons c rest ih =>
    by_cases hc : isAsciiLetter c
    · simp [firstLetterIdx, hc] at h
      rw [← h]
      exact Nat.succ_pos rest.length
    · simp only [firstLetterIdx, hc, if_false] at h
      cases hr : firstLetterIdx rest with
      | none => rw [hr] at h; simp at h
      | some i2 =>
        rw [hr] at h
        simp at h
        have := ih i2 hr
        simp only [List.length_cons]
        omega

theorem formatWord_no_space (w : JsString) (h : ' ' ∉ w) : ' ' ∉ formatWord w := by
  unfold formatWord
  cases hfi : firstLetterIdx w with
  | none => exact h
  | some i =>
    intro hmem
    rcases List.mem_append.mp hmem with hm | hm
    · exact h (List.mem_of_mem_take hm)
    · rcases List.mem_cons.mp hm with hm | hm
      · have hi : i < w.length := firstLetterIdx_lt_length w i hfi
        have hget : w.getD i ' ' ∈ w := by
          rw [List.getD_eq_getElem w ' ' hi]
          exact List.getElem_mem hi
        have : w.getD i ' ' ≠ ' ' := fun he => h (he ▸ hget)
        exact jsUpper_ne_space _ this hm.symm
      · rcases List.mem_map.mp hm with ⟨y, hy, hye⟩
        have hyw : y ∈ w := List.mem_of_mem_drop hy
        have : y ≠ ' ' := fun he => h (he ▸ hyw)
        exact jsLower_ne_space y this hye

/-- C6 counterexample: on the input `a<TAB>b` the whitespace-delimited tokens
are `a` and `b`, and the claimed per-token rule would capitalize both
(`A<TAB>B`), but `formatString` splits on plain spaces only, so the tab-joined
fragment is a single token and `b` stays lower-case: the output is `A<TAB>b`. -/
theorem c6_counterexample :
    formatString ("a\tb".data) = "A\tb".data ∧
    splitOnWs (formatString ("a\tb".data)) = [['A'], ['b']] ∧
    (splitOnWs (stripQuotes ("a\tb".data))).map formatWord = [['A'], ['B']] ∧
    splitOnWs (formatString ("a\tb".data)) ≠
      (splitOnWs (stripQuotes ("a\tb".data))).map formatWord := by
  refine ⟨by decide, by decide, by decide, by decide⟩

/-- C6 (amended): after stripping one leading and one trailing quote from the
whole string, for every SPACE-delimited token (JS `split(' ')`, not general
whitespace) the first ASCII-alphabetic character is upper-cased, the remainder
of the token after it is lower-cased, characters before it are preserved
verbatim, and a token with no alphabetic character passes through unchanged;
in particular `formatString('"the RED house"') = "The Red House"` and
`formatString('?????? CINEMA') = "?????? Cinema"`. -/
theorem c6_title_formatting :
    (∀ w : JsString, (∀ c ∈ w, isAsciiLetter c = false) → formatWord w = w) ∧
    (∀ w : JsString, ∀ j : Nat, j < w.length → isAsciiLetter (w.getD j ' ') = true →
      (∀ k, k < j → isAsciiLetter (w.getD k ' ') = false) →
      formatWord w = w.take j ++ jsUpper (w.getD j ' ') :: (w.drop (j + 1)).map jsLower) ∧
    (∀ s : JsString,
      splitOnSpace (formatString s) = (splitOnSpace (stripQuotes s)).map formatWord) ∧
    formatString ("\"the RED house\"".data) = "The Red House".data ∧
    formatString ("?????? CINEMA".data) = "?????? Cinema".data := by
  refine ⟨?_, ?_, ?_, by decide, by decide⟩
  · intro w h
    unfold formatWord
    rw [firstLetterIdx_none w h]
  · intro w j hj hlet hk
    unfold formatWord
    rw [firstLetterIdx_some w j hj hlet hk]
  · intro s
    unfold formatString
    apply splitOnSpace_joinSpace
    · intro hmap
      rcases List.map_eq_nil_iff.mp hmap with h
      exact splitOnSpace_ne_nil _ h
    · intro w hw
      rcases List.mem_map.mp hw with ⟨t, ht, rfl⟩
      exact formatWord_no_space t (splitOnSpace_no_space _ t ht)

/-- C6 witness: the per-token rule applied at the concrete token `rED`
(first letter at index 0). -/
theorem c6_witness :
    formatWord ("rED".data) =
      ("rED".data).take 0 ++ jsUpper (("rED".data).getD 0 ' ') ::
        (("rED".data).drop 1).map jsLower :=
  c6_title_formatting.2.1 ("rED".data) 0 (by decide) (by decide)
    (fun k hk => absurd hk (Nat.not_lt_zero k))

/-! ## Runtime parsing and the duration policy (src/updateGCal.js lines 170-178) -/

/-- `parseInt(ds, 10)` for a nonempty all-digit string. -/
def digitsToNat (ds : JsString) : Nat := ds.foldl (fun a c => a * 10 + (c.toNat - 48)) 0

/-- Case-insensitive character comparison (the regex `i` flag), ASCII. -/
def eqCI (a b : Char) : Bool := jsLower a == jsLower b

/-- Case-insensitive string equality. -/
def listEqCI : JsString → JsString → Bool
  | [], [] => true
  | a :: as, b :: bs => eqCI a b && listEqCI as bs
  | _, _ => false

/-- `runtimeValue.match(/^(\d+)\s*minutes$/i)`: the captured digit group as a
number, or `none` when the whole string does not match.  Maximal munch for
`\d+` and `\s*` is exact here because neither a space nor `m`/`M` is a digit
and `m`/`M` is not a space, so the regex engine never backtracks. -/
def matchRuntime (s : JsString) : Option Nat :=
  let ds := s.takeWhile isAsciiDigit
  if ds.isEmpty then none
  else if listEqCI ((s.dropWhile isAsciiDigit).dropWhile isJsSpace) ("minutes".data)
  then some (digitsToNat ds)
  else none

/-- The claim-side reading of the pattern `^(\d+)\s*minutes$` (case-insensitive):
the string decomposes into a nonempty digit group, optional whitespace, and a
case-insensitive spelling of `minutes`, with `n` the value of the digit group. -/
def RuntimePattern (s : JsString) (n : Nat) : Prop :=
  ∃ ds ws ms : JsString,
    s = ds ++ ws ++ ms ∧ ds ≠ [] ∧
    (∀ c ∈ ds, isAsciiDigit c = true) ∧
    (∀ c ∈ ws, isJsSpace c = true) ∧
    listEqCI ms ("minutes".data) = true ∧
    n = digitsToNat ds

/-- End-time computation of the merge stage (src/updateGCal.js lines 170-178):
`start + (N+15) minutes` when the runtime text matches, else `start + 2 hours`;
times in milliseconds as `Date.getTime()`.  A missing or empty runtime value is
falsy in `runtimeValue && runtimeValue.match(...)` and takes the default. -/
def computeEndMs (startMs : Nat) (runtimeValue : Option JsString) : Nat :=
  let m : Option Nat :=
    match runtimeValue with
    | some rt => if rt.isEmpty then none else matchRuntime rt
    | none => none
  match m with
  | some n => startMs + (n + 15) * 60000
  | none => startMs + 2 * 60 * 60000

/-! ## Generic takeWhile/dropWhile decomposition lemmas -/

theorem takeWhile_append_of_all (p : Char → Bool) (l1 l2 : JsString)
    (h : ∀ c ∈ l1, p c = true) : (l1 ++ l2).takeWhile p = l1 ++ l2.takeWhile p := by
  induction l1 with
  | nil => rfl
  | cons c t ih =>
    have hc := h c (List.mem_cons_self c t)
    simp only [List.cons_append, List.takeWhile_cons, hc]
    rw [ih (fun x hx => h x (List.mem_cons_of_mem c hx))]
    simp

theorem dropWhile_append_of_all (p : Char → Bool) (l1 l2 : JsString)
    (h : ∀ c ∈ l1, p c = true) : (l1 ++ l2).dropWhile p = l2.dropWhile p := by
  induction l1 with
  | nil => rfl
  | cons c t ih =>
    have hc := h c (List.mem_cons_self c t)
    simp only [List.cons_append, List.dropWhile_cons, hc]
    exact ih (fun x hx => h x (List.mem_cons_of_mem c hx))

theorem takeWhile_eq_nil_of_head (p : Char → Bool) (l : JsString)
    (h : ∀ c, l.head? = some c → p c = false) : l.takeWhile p = [] := by
  cases l with
  | nil => rfl
  | cons c t =>
    have := h c rfl
    simp [List.takeWhile_cons, this]

theorem dropWhile_eq_self_of_head (p : Char → Bool) (l : JsString)
    (h : ∀ c, l.head? = some c → p c = false) : l.dropWhile p = l := by
  cases l with
  | nil => rfl
  | cons c t =>
    have := h c rfl
    simp [List.dropWhile_cons, this]

/-! ## Character-class disjointness facts -/

theorem isJsSpace_not_digit (c : Char) (h : isJsSpace c = true) :
    isAsciiDigit c = false := by
  simp only [isJsSpace, Bool.or_eq_true, decide_eq_true_eq] at h
  simp only [isAsciiDigit, Bool.and_eq_false_iff, decide_eq_false_iff_not]
  omega

theorem jsLower_eq_m_toNat (c : Char) (h : jsLower c = 'm') :
    c.toNat = 77 ∨ c.toNat = 109 := by
  by_cases hu : 65 ≤ c.toNat ∧ c.toNat ≤ 90
  · have h2 := jsLower_toNat_of_upper c hu
    rw [h] at h2
    have hm : ('m').toNat = 109 := by decide
    omega
  · rw [jsLower_eq_of_not_upper c hu] at h
    right
    rw [h]
    decide

theorem jsLower_eq_m_not_digit (c : Char) (h : jsLower c = 'm') :
    isAsciiDigit c = false := by
  rcases jsLower_eq_m_toNat c h with h2 | h2 <;>
    · simp only [isAsciiDigit, Bool.and_eq_false_iff, decide_eq_false_iff_not]
      omega

theorem jsLower_eq_m_not_space (c : Char) (h : jsLower c = 'm') :
    isJsSpace c = false := by
  rcases jsLower_eq_m_toNat c h with h2 | h2 <;>
    · simp only [isJsSpace, Bool.or_eq_false_iff, decide_eq_false_iff_not]
      omega

theorem listEqCI_head_m (ms rest2 : JsString) (c : Char)
    (hms : ms = c :: rest2) (h : listEqCI ms ("minutes".data) = true) :
    jsLower c = 'm' := by
  subst hms
  have : listEqCI (c :: rest2) ("minutes".data) = (eqCI c 'm' && listEqCI rest2 ("inutes".data)) := rfl
  rw [this, Bool.and_eq_true] at h
  have h2 := h.1
  simp only [eqCI, beq_iff_eq] at h2
  rw [h2]
  decide

/-- Head of the part after the digit group fails both `isAsciiDigit` (so the
digit munch stops there) and, for the part after spaces, `isJsSpace`. -/
theorem runtime_tail_head_not_digit (ws ms : JsString)
    (hw : ∀ c ∈ ws, isJsSpace c = true)
    (hm : listEqCI ms ("minutes".data) = true) :
    ∀ c, (ws ++ ms).head? = some c → isAsciiDigit c = false := by
  intro c hc
  cases ws with
  | cons w t =>
    simp only [List.cons_append, List.head?_cons, Option.some.injEq] at hc
    subst hc
    exact isJsSpace_not_digit w (hw w (List.mem_cons_self w t))
  | nil =>
    simp only [List.nil_append] at hc
    cases ms with
    | nil => simp at hc
    | cons m t =>
      simp only [List.head?_cons, Option.some.injEq] at hc
      subst hc
      exact jsLower_eq_m_not_digit m (listEqCI_head_m _ t m rfl hm)

/-- Correctness of the executable matcher against the claim-side pattern. -/
theorem matchRuntime_iff (s : JsString) (n : Nat) :
    matchRuntime s = some n ↔ RuntimePattern s n := by
  constructor
  · intro h
    unfold matchRuntime at h
    by_cases hds : (s.takeWhile isAsciiDigit).isEmpty
    · rw [if_pos hds] at h
      exact absurd h (by simp)
    · rw [if_neg hds] at h
      by_cases hci : listEqCI ((s.dropWhile isAsciiDigit).dropWhile isJsSpace) ("minutes".data)
      · rw [if_pos hci] at h
        refine ⟨s.takeWhile isAsciiDigit, (s.dropWhile isAsciiDigit).takeWhile isJsSpace,
          (s.dropWhile isAsciiDigit).dropWhile isJsSpace, ?_, ?_, ?_, ?_, hci, ?_⟩
        · rw [List.append_assoc, List.takeWhile_append_dropWhile, List.takeWhile_append_dropWhile]
        · rw [Bool.not_eq_true, List.isEmpty_eq_false] at hds
          exact hds
        · exact fun c hc => List.mem_takeWhile_imp hc
        · exact fun c hc => List.mem_takeWhile_imp hc
        · simpa using h.symm
      · rw [if_neg hci] at h
        exact absurd h (by simp)
  · rintro ⟨ds, ws, ms, rfl, hne, hd, hw, hm, rfl⟩
    have hhead := runtime_tail_head_not_digit ws ms hw hm
    have htake : ((ds ++ ws ++ ms).takeWhile isAsciiDigit) = ds := by
      rw [List.append_assoc, takeWhile_append_of_all isAsciiDigit ds (ws ++ ms) hd,
        takeWhile_eq_nil_of_head _ _ hhead, List.append_nil]
    have hdrop : ((ds ++ ws ++ ms).dropWhile isAsciiDigit) = ws ++ ms := by
      rw [List.append_assoc, dropWhile_append_of_all isAsciiDigit ds (ws ++ ms) hd,
        dropWhile_eq_self_of_head _ _ hhead]
    have hdrop2 : ((ws ++ ms).dropWhile isJsSpace) = ms := by
      rw [dropWhile_append_of_all isJsSpace ws ms hw]
      refine dropWhile_eq_self_of_head _ _ ?_
      intro c hc
      cases ms with
      | nil => simp at hc
      | cons m t =>
        simp only [List.head?_cons, Option.some.injEq] at hc
        subst hc
        exact jsLower_eq_m_not_space m (listEqCI_head_m _ t m rfl hm)
    unfold matchRuntime
    rw [htake, hdrop, hdrop2, if_neg (by simpa using hne), if_pos hm]

/-! ## Civil dates and wall-clock instants -/

/-- Gregorian leap-year rule. -/
def isLeapYear (y : Nat) : Bool := y % 4 = 0 && (y % 100 ≠ 0 || y % 400 = 0)

/-- Days in a month (1-based month). -/
def daysInMonth (y m : Nat) : Nat :=
  if m = 2 then (if isLeapYear y then 29 else 28)
  else if m = 4 ∨ m = 6 ∨ m = 9 ∨ m = 11 then 30
  else 31

/-- Days from 1970-01-01 to the civil date `y-m-d` (for `y ≥ 1970`, 1-based
month and day). -/
def daysFromCivil (y m d : Nat) : Nat :=
  (List.range (y - 1970)).foldl (fun acc i => acc + (if isLeapYear (1970 + i) then 366 else 365)) 0
  + (List.range (m - 1)).foldl (fun acc i => acc + daysInMonth y (i + 1)) 0
  + (d - 1)

/-- Milliseconds since the epoch of the local wall-clock instant
`y-m-d hh:mm`, the value of `new Date("YYYY-MM-DDTHH:MM").getTime()` in a
fixed-offset frame (the merge stage only ever compares and shifts instants
within the same frame, so the frame offset cancels). -/
def dateTimeToMs (y m d hh mm : Nat) : Nat :=
  daysFromCivil y m d * 86400000 + hh * 3600000 + mm * 60000

/-- Unfolding equation for `computeEndMs` on a present runtime value. -/
theorem computeEndMs_eq (startMs : Nat) (rt : JsString) :
    computeEndMs startMs (some rt) =
      match (if rt.isEmpty = true then none else matchRuntime rt) with
      | some n => startMs + (n + 15) * 60000
      | none => startMs + 2 * 60 * 60000 := rfl

/-- C2: for every merged listing, a runtime text matching
`^(\d+)\s*minutes$` (case-insensitive) with captured value `N` yields
`end = start + (N + 15) minutes`, and any other runtime value (unmatched,
empty, or absent) yields `end = start + 2 hours`; in particular runtime
`"90 minutes"` with start `2025-05-01T19:00` yields end `2025-05-01T20:45`. -/
theorem c2_duration_policy :
    (∀ (startMs : Nat) (rt : JsString) (n : Nat), RuntimePattern rt n →
      computeEndMs startMs (some rt) = startMs + (n + 15) * 60000) ∧
    (∀ (startMs : Nat) (rt : Option JsString),
      (∀ n, ¬ RuntimePattern (rt.getD []) n) →
      computeEndMs startMs rt = startMs + 2 * 60 * 60000) ∧
    computeEndMs (dateTimeToMs 2025 5 1 19 0) (some ("90 minutes".data)) =
      dateTimeToMs 2025 5 1 20 45 := by
  refine ⟨?_, ?_, by decide⟩
  · intro startMs rt n hpat
    have hmatch : matchRuntime rt = some n := (matchRuntime_iff rt n).mpr hpat
    have hne : rt ≠ [] := by
      rcases hpat with ⟨ds, ws, ms, rfl, hne, -, -, -, -⟩
      simp [hne]
    rw [computeEndMs_eq, List.isEmpty_eq_false.mpr hne, if_neg (by simp), hmatch]
  · intro startMs rt hnone
    cases rt with
    | none => rfl
    | some s =>
      by_cases hemp : s.isEmpty = true
      · rw [computeEndMs_eq, hemp, if_pos rfl]
      · cases hm : matchRuntime s with
        | some k =>
          exact absurd ((matchRuntime_iff s k).mp hm) (by simpa using hnone k)
        | none =>
          rw [computeEndMs_eq, if_neg hemp, hm]

/-- C2 witness: the matched branch at runtime text `90 minutes` (N = 90) and
the default branch at the unmatched runtime text `TBD`. -/
theorem c2_witness :
    computeEndMs 0 (some ("90 minutes".data)) = 0 + (90 + 15) * 60000 ∧
    computeEndMs 0 (some ("TBD".data)) = 0 + 2 * 60 * 60000 :=
  ⟨c2_duration_policy.1 0 ("90 minutes".data) 90
      ⟨"90".data, " ".data, "minutes".data, by decide, by decide, by decide,
        by decide, by decide, by decide⟩,
    c2_duration_policy.2.1 0 (some ("TBD".data))
      (fun n hpat => by
        have hm := (matchRuntime_iff (("TBD".data) : JsString) n).mpr hpat
        have hn : matchRuntime ("TBD".data) = none := by decide
        rw [hn] at hm
        exact Option.noConfusion hm)⟩

/-! ## `deduplicateRows` (src/utils.js lines 73-92) -/

/-- Loop of `deduplicateRows`: `seen` is the set of keys already emitted. -/
def deduplicateRowsGo {T K : Type} [DecidableEq K] (keyFn : T → K) :
    List T → List K → List T
  | [], _ => []
  | r :: rs, seen =>
    if keyFn r ∈ seen then deduplicateRowsGo keyFn rs seen
    else r :: deduplicateRowsGo keyFn rs (keyFn r :: seen)

/-- `deduplicateRows(rows, keyFn)` from `src/utils.js`: keeps the first
occurrence of each key, preserving input order. -/
def deduplicateRows {T K : Type} [DecidableEq K] (rows : List T) (keyFn : T → K) : List T :=
  deduplicateRowsGo keyFn rows []

theorem dedupGo_subset {T K : Type} [DecidableEq K] (keyFn : T → K)
    (rows : List T) (seen : List K) :
    ∀ r ∈ deduplicateRowsGo keyFn rows seen, r ∈ rows := by
  induction rows generalizing seen with
  | nil => simp [deduplicateRowsGo]
  | cons r rs ih =>
    intro x hx
    by_cases h : keyFn r ∈ seen
    · simp only [deduplicateRowsGo, if_pos h] at hx
      exact List.mem_cons_of_mem r (ih seen x hx)
    · simp only [deduplicateRowsGo, if_neg h] at hx
      rcases List.mem_cons.mp hx with hx | hx
      · exact hx ▸ List.mem_cons_self r rs
      · exact List.mem_cons_of_mem r (ih _ x hx)

theorem dedupGo_keys_nodup {T K : Type} [DecidableEq K] (keyFn : T → K)
    (rows : List T) (seen : List K) :
    ((deduplicateRowsGo keyFn rows seen).map keyFn).Nodup ∧
    ∀ k ∈ (deduplicateRowsGo keyFn rows seen).map keyFn, k ∉ seen := by
  induction rows generalizing seen with
  | nil => simp [deduplicateRowsGo]
  | cons r rs ih =>
    by_cases h : keyFn r ∈ seen
    · simpa only [deduplicateRowsGo, if_pos h] using ih seen
    · simp only [deduplicateRowsGo, if_neg h, List.map_cons, List.nodup_cons, List.mem_cons]
      obtain ⟨ihn, ihs⟩ := ih (keyFn r :: seen)
      refine ⟨⟨?_, ihn⟩, ?_⟩
      · intro hmem
        exact ihs _ hmem (List.mem_cons_self _ _)
      · rintro k (rfl | hk)
        · exact h
        · intro hks
          exact ihs k hk (List.mem_cons_of_mem _ hks)

theorem dedupGo_toFinset {T K : Type} [DecidableEq K] (keyFn : T → K)
    (rows : List T) (seen : List K) :
    ((deduplicateRowsGo keyFn rows seen).map keyFn).toFinset =
      (rows.map keyFn).toFinset \ seen.toFinset := by
  induction rows generalizing seen with
  | nil => simp [deduplicateRowsGo]
  | cons r rs ih =>
    by_cases h : keyFn r ∈ seen
    · simp only [deduplicateRowsGo, if_pos h, List.map_cons, List.toFinset_cons]
      rw [ih seen, Finset.insert_sdiff_of_mem _ (List.mem_toFinset.mpr h)]
    · simp only [deduplicateRowsGo, if_neg h, List.map_cons, List.toFinset_cons]
      rw [ih (keyFn r :: seen)]
      ext x
      simp only [Finset.mem_insert, Finset.mem_sdiff, List.mem_toFinset, List.mem_cons]
      by_cases hx : x = keyFn r
      · subst hx
        simp [h]
      · simp [hx]

theorem find?_congr_mem {α : Type} (p q : α → Bool) (l : List α)
    (h : ∀ x ∈ l, p x = q x) : l.find? p = l.find? q := by
  induction l with
  | nil => rfl
  | cons a t ih =>
    rw [List.find?_cons, List.find?_cons, h a (List.mem_cons_self a t)]
    cases q a
    · exact ih (fun x hx => h x (List.mem_cons_of_mem a hx))
    · rfl

theorem dedupGo_first_occ {T K : Type} [DecidableEq K] (keyFn : T → K)
    (rows : List T) (seen : List K) :
    ∀ r ∈ deduplicateRowsGo keyFn rows seen,
      keyFn r ∉ seen ∧
      rows.find? (fun x => decide (keyFn x = keyFn r)) = some r := by
  induction rows generalizing seen with
  | nil => simp [deduplicateRowsGo]
  | cons r rs ih =>
    intro x hx
    by_cases h : keyFn r ∈ seen
    · simp only [deduplicateRowsGo, if_pos h] at hx
      obtain ⟨hns, hfind⟩ := ih seen x hx
      have hne : keyFn r ≠ keyFn x := fun he => hns (he ▸ h)
      refine ⟨hns, ?_⟩
      rw [List.find?_cons, decide_eq_false hne]
      exact hfind
    · simp only [deduplicateRowsGo, if_neg h] at hx
      rcases List.mem_cons.mp hx with hx | hx
      · subst hx
        refine ⟨h, ?_⟩
        rw [List.find?_cons, decide_eq_true rfl]
      · obtain ⟨hns, hfind⟩ := ih (keyFn r :: seen) x hx
        have hne : keyFn r ≠ keyFn x := fun he => hns (he ▸ List.mem_cons_self _ _)
        refine ⟨fun hs => hns (List.mem_cons_of_mem _ hs), ?_⟩
        rw [List.find?_cons, decide_eq_false hne]
        exact hfind

/-- A calendar event payload as the dedup stage sees it: the formatted display
summary and the ISO start string (`event.start.dateTime`),
src/updateGCal.js lines 184-196. -/
structure GEvent where
  summary : JsString
  startDateTime : JsString
deriving DecidableEq

/-- The dedup key of src/updateGCal.js line 215:
`event => event.summary + '|' + event.start.dateTime`. -/
def eventDedupKey (e : GEvent) : JsString := e.summary ++ '|' :: e.startDateTime

/-- Joining with `|` is injective as long as the second component is
`|`-free (ISO datetime strings contain no `|`). -/
theorem append_bar_inj (s1 d1 s2 d2 : JsString) (h1 : '|' ∉ d1) (h2 : '|' ∉ d2)
    (he : s1 ++ '|' :: d1 = s2 ++ '|' :: d2) : s1 = s2 ∧ d1 = d2 := by
  induction s1 generalizing s2 with
  | nil =>
    cases s2 with
    | nil => simpa using he
    | cons c t =>
      simp only [List.nil_append, List.cons_append, List.cons.injEq] at he
      exact absurd (he.2 ▸ List.mem_append_right t (List.mem_cons_self '|' d2)) h1
  | cons c t ih =>
    cases s2 with
    | nil =>
      simp only [List.nil_append, List.cons_append, List.cons.injEq] at he
      exact absurd (he.2.symm ▸ List.mem_append_right t (List.mem_cons_self '|' d1)) h2
    | cons c2 t2 =>
      simp only [List.cons_append, List.cons.injEq] at he
      obtain ⟨hs, hd⟩ := ih t2 he.2
      exact ⟨by rw [he.1, hs], hd⟩

theorem list_toFinset_map {A B : Type} [DecidableEq A] [DecidableEq B]
    (l : List A) (f : A → B) : (l.map f).toFinset = l.toFinset.image f := by
  induction l with
  | nil => simp
  | cons a t ih => simp [ih]

/-- C3: for every list of candidate events with exactly `k` distinct
`(displayTitle, startDateTime)` keys — the key over the display summary, so
differing display spellings stay distinct — the dedup stage returns exactly
`k` events, each equal to the first occurrence of its key in input order, and
with pairwise-distinct keys. -/
theorem c3_dedup_correctness :
    ∀ (events : List GEvent), (∀ e ∈ events, '|' ∉ e.startDateTime) →
    ∀ k : Nat, ((events.map fun e => (e.summary, e.startDateTime)).toFinset.card = k) →
      (deduplicateRows events eventDedupKey).length = k ∧
      (∀ e ∈ deduplicateRows events eventDedupKey,
        events.find?
          (fun x => decide ((x.summary, x.startDateTime) = (e.summary, e.startDateTime)))
          = some e) ∧
      ((deduplicateRows events eventDedupKey).map eventDedupKey).Nodup := by
  intro events hbar k hk
  subst hk
  have hnodup : ((deduplicateRows events eventDedupKey).map eventDedupKey).Nodup :=
    (dedupGo_keys_nodup eventDedupKey events []).1
  have hkey_iff : ∀ x ∈ events, ∀ e ∈ events,
      (eventDedupKey x = eventDedupKey e) ↔
      ((x.summary, x.startDateTime) = (e.summary, e.startDateTime)) := by
    intro x hx e he
    constructor
    · intro h
      obtain ⟨h1, h2⟩ := append_bar_inj _ _ _ _ (hbar x hx) (hbar e he) h
      rw [Prod.mk.injEq]
      exact ⟨h1, h2⟩
    · intro h
      rw [Prod.mk.injEq] at h
      unfold eventDedupKey
      rw [h.1, h.2]
  refine ⟨?_, ?_, hnodup⟩
  · have hlen : (deduplicateRows events eventDedupKey).length
        = ((deduplicateRows events eventDedupKey).map eventDedupKey).length :=
      (List.length_map _ _).symm
    rw [hlen, ← List.toFinset_card_of_nodup hnodup]
    unfold deduplicateRows
    rw [dedupGo_toFinset]
    simp only [List.toFinset_nil, Finset.sdiff_empty]
    have hcomp : events.map eventDedupKey
        = (events.map fun e => (e.summary, e.startDateTime)).map
            (fun p => p.1 ++ '|' :: p.2) := by
      rw [List.map_map]
      rfl
    rw [hcomp, list_toFinset_map]
    apply Finset.card_image_of_injOn
    intro p hp q hq hpq
    simp only [Finset.mem_coe, List.mem_toFinset, List.mem_map] at hp hq
    obtain ⟨ep, hep, rfl⟩ := hp
    obtain ⟨eq', heq, rfl⟩ := hq
    obtain ⟨h1, h2⟩ := append_bar_inj _ _ _ _ (hbar ep hep) (hbar eq' heq) hpq
    rw [Prod.mk.injEq]
    exact ⟨h1, h2⟩
  · intro e he
    have hsub := dedupGo_subset eventDedupKey events [] e he
    have hfind := (dedupGo_first_occ eventDedupKey events [] e he).2
    rw [← hfind]
    apply find?_congr_mem
    intro x hx
    exact decide_eq_decide.mpr ((hkey_iff x hx e hsub).symm)

/-- C3 witness: three events with two distinct keys (the third repeats the
first key) dedup to the first two events in order. -/
theorem c3_witness :
    (deduplicateRows
      [⟨"A".data, "d1".data⟩, ⟨"B".data, "d1".data⟩, ⟨"A".data, "d1".data⟩]
      eventDedupKey).length = 2 :=
  (c3_dedup_correctness
    [⟨"A".data, "d1".data⟩, ⟨"B".data, "d1".data⟩, ⟨"A".data, "d1".data⟩]
    (by decide) 2 (by decide)).1

/-! ## `navigateWithRetry` (src/utils.js lines 264-293) -/

/-- Outcome of one underlying `page.goto` call: success, a
navigation-timeout-classified error, or any other error with its message. -/
inductive NavResult where
  | success
  | timeout
  | failure (msg : JsString)
deriving DecidableEq

/-- The `for (attempt = 1; attempt <= maxRetries + 1; attempt++)` loop of
`navigateWithRetry`: `attempt` is the 1-based attempt index and
`remaining = maxRetries + 1 - attempt` counts the retries still allowed after
the current attempt.  Returns the outcome (`ok` boolean, or a propagated
non-timeout error) together with the index of the last attempt made. -/
def navigateLoop (beh : Nat → NavResult) : Nat → Nat → Except JsString Bool × Nat
  | attempt, 0 =>
    match beh attempt with
    | .success => (.ok true, attempt)
    | .failure msg => (.error msg, attempt)
    | .timeout => (.ok false, attempt)
  | attempt, r + 1 =>
    match beh attempt with
    | .success => (.ok true, attempt)
    | .failure msg => (.error msg, attempt)
    | .timeout => navigateLoop beh (attempt + 1) r

/-- `navigateWithRetry(page, url, {maxRetries})`, with the underlying
navigation modelled as `beh : attempt index → outcome`. -/
def navigateWithRetry (beh : Nat → NavResult) (maxRetries : Nat) :
    Except JsString Bool × Nat :=
  navigateLoop beh 1 maxRetries

theorem navigateLoop_all_timeout (beh : Nat → NavResult)
    (h : ∀ i, beh i = .timeout) :
    ∀ (remaining attempt : Nat),
      navigateLoop beh attempt remaining = (.ok false, attempt + remaining) := by
  intro remaining
  induction remaining with
  | zero =>
    intro attempt
    unfold navigateLoop
    rw [h attempt]
    rfl
  | succ r ih =>
    intro attempt
    unfold navigateLoop
    rw [h attempt]
    show navigateLoop beh (attempt + 1) r
        = ((.ok false, attempt + (r + 1)) : Except JsString Bool × Nat)
    rw [ih (attempt + 1)]
    congr 1
    omega

theorem navigateLoop_failure (beh : Nat → NavResult) (k : Nat) (msg : JsString)
    (hfail : beh k = .failure msg) :
    ∀ (remaining attempt : Nat), attempt ≤ k → k ≤ attempt + remaining →
      (∀ i, attempt ≤ i → i < k → beh i = .timeout) →
      navigateLoop beh attempt remaining = (.error msg, k) := by
  intro remaining
  induction remaining with
  | zero =>
    intro attempt h1 h2 _
    have : attempt = k := by omega
    subst this
    unfold navigateLoop
    rw [hfail]
  | succ r ih =>
    intro attempt h1 h2 hto
    by_cases hak : attempt = k
    · subst hak
      unfold navigateLoop
      rw [hfail]
    · have hlt : attempt < k := by omega
      unfold navigateLoop
      rw [hto attempt (le_refl attempt) hlt]
      show navigateLoop beh (attempt + 1) r = (.error msg, k)
      exact ih (attempt + 1) (by omega) (by omega)
        (fun i hi hik => hto i (by omega) hik)

/-- C5: for every `maxRetries ≥ 0`, a target whose navigation times out on
every attempt produces exactly `maxRetries + 1` attempts and the value
`success = false` (no thrown error), while a non-timeout failure at any
attempt `k ≤ maxRetries + 1` (all earlier attempts timing out) propagates
immediately: the error is returned and attempt `k` is the last one made. -/
theorem c5_navigation_retry :
    (∀ (maxRetries : Nat) (beh : Nat → NavResult), (∀ i, beh i = .timeout) →
      navigateWithRetry beh maxRetries = (.ok false, maxRetries + 1)) ∧
    (∀ (maxRetries k : Nat) (beh : Nat → NavResult) (msg : JsString),
      1 ≤ k → k ≤ maxRetries + 1 →
      (∀ i, 1 ≤ i → i < k → beh i = .timeout) →
      beh k = .failure msg →
      navigateWithRetry beh maxRetries = (.error msg, k)) := by
  constructor
  · intro maxRetries beh h
    unfold navigateWithRetry
    rw [navigateLoop_all_timeout beh h maxRetries 1]
    congr 1
    omega
  · intro maxRetries k beh msg h1 h2 hto hfail
    unfold navigateWithRetry
    exact navigateLoop_failure beh k msg hfail maxRetries 1 h1 (by omega) hto

/-- C5 witness: with `maxRetries = 2`, an always-timing-out target yields
3 attempts and `ok false`; a target that times out once and then fails with
a non-timeout error propagates that error after attempt 2. -/
theorem c5_witness :
    navigateWithRetry (fun _ => NavResult.timeout) 2 = (.ok false, 3) ∧
    navigateWithRetry
      (fun i => if i = 2 then NavResult.failure ("DNS".data) else NavResult.timeout) 2 =
      (.error ("DNS".data), 2) :=
  ⟨c5_navigation_retry.1 2 (fun _ => NavResult.timeout) (fun _ => rfl),
    c5_navigation_retry.2 2 2
      (fun i => if i = 2 then NavResult.failure ("DNS".data) else NavResult.timeout)
      ("DNS".data) (by omega) (by omega)
      (fun i hi1 hi2 => by
        have : i = 1 := by omega
        subst this
        rfl)
      (by rfl)⟩

/-! ## Zero-padded decimal date strings and the JS string order -/

/-- The ASCII digit character of `n % 10`. -/
def digitChar (n : Nat) : Char := Char.ofNat (48 + n % 10)

/-- Two-digit zero-padded decimal (of `n % 100`). -/
def pad2 (n : Nat) : JsString := [digitChar (n / 10), digitChar n]

/-- Four-digit zero-padded decimal (of `n % 10000`). -/
def pad4 (n : Nat) : JsString := pad2 (n / 100) ++ pad2 n

/-- A civil (Gregorian) calendar date. -/
structure CivilDate where
  year : Nat
  month : Nat
  day : Nat
deriving DecidableEq

/-- The `YYYY-MM-DD` rendering of a civil date — the shape of both the
`Date` column of schedule.csv and of `toISOString().split('T')[0]`. -/
def dateStr (d : CivilDate) : JsString :=
  pad4 d.year ++ '-' :: (pad2 d.month ++ '-' :: pad2 d.day)

/-- JS `<` on strings: lexicographic by UTF-16 code unit. -/
def jsStrLt : JsString → JsString → Bool
  | [], [] => false
  | [], _ :: _ => true
  | _ :: _, [] => false
  | a :: as, b :: bs =>
    if a.toNat < b.toNat then true
    else if b.toNat < a.toNat then false
    else jsStrLt as bs

/-- Calendar order on civil dates, as an if-chain mirroring lexicographic
comparison of (year, month, day). -/
def dateLt (a b : CivilDate) : Bool :=
  if a.year < b.year then true
  else if b.year < a.year then false
  else if a.month < b.month then true
  else if b.month < a.month then false
  else decide (a.day < b.day)

theorem digitChar_toNat (n : Nat) : (digitChar n).toNat = 48 + n % 10 :=
  char_toNat_ofNat _ (by omega)

theorem jsStrLt_cons (a b : Char) (as bs : JsString) :
    jsStrLt (a :: as) (b :: bs) =
      (if a.toNat < b.toNat then true
       else if b.toNat < a.toNat then false
       else jsStrLt as bs) := rfl

theorem jsStrLt_irrefl (s : JsString) : jsStrLt s s = false := by
  induction s with
  | nil => rfl
  | cons a t ih =>
    rw [jsStrLt_cons, if_neg (lt_irrefl _), if_neg (lt_irrefl _), ih]

theorem jsStrLt_cons_same (c : Char) (t1 t2 : JsString) :
    jsStrLt (c :: t1) (c :: t2) = jsStrLt t1 t2 := by
  rw [jsStrLt_cons, if_neg (lt_irrefl _), if_neg (lt_irrefl _)]

theorem jsStrLt_pad2 (m1 m2 : Nat) (t1 t2 : JsString) :
    jsStrLt (pad2 m1 ++ t1) (pad2 m2 ++ t2) =
      (if m1 % 100 < m2 % 100 then true
       else if m2 % 100 < m1 % 100 then false
       else jsStrLt t1 t2) := by
  have e1 := digitChar_toNat (m1 / 10)
  have e2 := digitChar_toNat (m2 / 10)
  have e3 := digitChar_toNat m1
  have e4 := digitChar_toNat m2
  show jsStrLt (digitChar (m1 / 10) :: digitChar m1 :: t1)
      (digitChar (m2 / 10) :: digitChar m2 :: t2) = _
  rw [jsStrLt_cons, jsStrLt_cons, e1, e2, e3, e4]
  split_ifs <;> first | rfl | (exfalso; omega)

theorem jsStrLt_pad4 (y1 y2 : Nat) (t1 t2 : JsString) :
    jsStrLt (pad4 y1 ++ t1) (pad4 y2 ++ t2) =
      (if y1 % 10000 < y2 % 10000 then true
       else if y2 % 10000 < y1 % 10000 then false
       else jsStrLt t1 t2) := by
  show jsStrLt (pad2 (y1 / 100) ++ (pad2 y1 ++ t1)) (pad2 (y2 / 100) ++ (pad2 y2 ++ t2)) = _
  rw [jsStrLt_pad2, jsStrLt_pad2]
  split_ifs <;> first | rfl | (exfalso; omega)

theorem jsStrLt_pad2_nil (m1 m2 : Nat) :
    jsStrLt (pad2 m1) (pad2 m2) = decide (m1 % 100 < m2 % 100) := by
  have h := jsStrLt_pad2 m1 m2 [] []
  rw [List.append_nil, List.append_nil] at h
  rw [h]
  split_ifs with hA hB
  · simp [hA]
  · have : ¬ m1 % 100 < m2 % 100 := by omega
    simp [this]
  · have : ¬ m1 % 100 < m2 % 100 := by omega
    show jsStrLt [] [] = _
    simp [jsStrLt, this]

/-- On dates with four-digit years and two-digit months/days, the JS string
order on `YYYY-MM-DD` agrees with calendar order. -/
theorem jsStrLt_dateStr (a b : CivilDate)
    (ha : a.year ≤ 9999) (hb : b.year ≤ 9999)
    (ham : a.month ≤ 99) (hbm : b.month ≤ 99)
    (had : a.day ≤ 99) (hbd : b.day ≤ 99) :
    jsStrLt (dateStr a) (dateStr b) = dateLt a b := by
  unfold dateStr
  rw [jsStrLt_pad4, dateLt]
  have hy1 : a.year % 10000 = a.year := Nat.mod_eq_of_lt (by omega)
  have hy2 : b.year % 10000 = b.year := Nat.mod_eq_of_lt (by omega)
  rw [hy1, hy2, jsStrLt_cons_same, jsStrLt_pad2]
  have hm1 : a.month % 100 = a.month := Nat.mod_eq_of_lt (by omega)
  have hm2 : b.month % 100 = b.month := Nat.mod_eq_of_lt (by omega)
  rw [hm1, hm2, jsStrLt_cons_same, jsStrLt_pad2_nil]
  have hd1 : a.day % 100 = a.day := Nat.mod_eq_of_lt (by omega)
  have hd2 : b.day % 100 = b.day := Nat.mod_eq_of_lt (by omega)
  rw [hd1, hd2]

/-! ## The run instant and the horizon cutoff (src/updateGCal.js line 131) -/

/-- The moment `connectToCalendar` captures `today`: the current UTC civil
date together with the minutes already elapsed in that UTC day. -/
structure RunInstant where
  utcDate : CivilDate
  utcMinutes : Nat
deriving DecidableEq

/-- `const today = new Date().toISOString().split('T')[0]` —
`toISOString` always renders the UTC date. -/
def todayStrOfInstant (t : RunInstant) : JsString := dateStr t.utcDate

/-- The previous calendar day. -/
def prevDay (d : CivilDate) : CivilDate :=
  if 1 < d.day then ⟨d.year, d.month, d.day - 1⟩
  else if 1 < d.month then ⟨d.year, d.month - 1, daysInMonth d.year (d.month - 1)⟩
  else ⟨d.year - 1, 12, 31⟩

/-- Modelled from the spec: "its date component is `>= today` in the
configured venue time zone".  For a venue west of Greenwich at UTC−`offMin`
minutes (`0 < offMin < 1440`), the venue-local civil date of an instant is the
UTC date once `offMin` minutes of the UTC day have elapsed, and the previous
day before that. -/
def venueLocalDate (t : RunInstant) (offMin : Nat) : CivilDate :=
  if offMin ≤ t.utcMinutes then t.utcDate else prevDay t.utcDate

/-- A well-formed calendar date with a `toISOString`-renderable year. -/
def ValidCivilDate (d : CivilDate) : Prop :=
  1 ≤ d.year ∧ d.year ≤ 9999 ∧ 1 ≤ d.month ∧ d.month ≤ 12 ∧
  1 ≤ d.day ∧ d.day ≤ daysInMonth d.year d.month

instance (d : CivilDate) : Decidable (ValidCivilDate d) := by
  unfold ValidCivilDate
  infer_instance

theorem daysInMonth_le_31 (y m : Nat) : daysInMonth y m ≤ 31 := by
  unfold daysInMonth
  split_ifs <;> simp_all

theorem prevDay_dateLt (d : CivilDate) (h : ValidCivilDate d) :
    dateLt (prevDay d) d = true := by
  obtain ⟨h1, h2, h3, h4, h5, h6⟩ := h
  unfold prevDay dateLt
  by_cases hd : 1 < d.day
  · rw [if_pos hd]
    simp only [lt_irrefl, if_neg, if_false, decide_eq_true_eq]
    omega
  · rw [if_neg hd]
    by_cases hm : 1 < d.month
    · rw [if_pos hm]
      simp only
      rw [if_neg (lt_irrefl _), if_neg (lt_irrefl _), if_pos (by omega : d.month - 1 < d.month)]
    · rw [if_neg hm]
      simp only
      rw [if_pos (by omega : d.year - 1 < d.year)]

theorem prevDay_bounds (d : CivilDate) (h : ValidCivilDate d) :
    (prevDay d).year ≤ 9999 ∧ (prevDay d).month ≤ 99 ∧ (prevDay d).day ≤ 99 := by
  obtain ⟨h1, h2, h3, h4, h5, h6⟩ := h
  have h31 := daysInMonth_le_31 d.year (d.month - 1)
  have h31b := daysInMonth_le_31 d.year d.month
  unfold prevDay
  split_ifs <;> simp only <;> omega

/-- The keep decision of the horizon filter, src/updateGCal.js line 149:
a row is kept by the date check unless `row.Date < today`. -/
def keepByDate (rowDate today : JsString) : Bool := !(jsStrLt rowDate today)

/-! ## The schedule-row merge loop (src/updateGCal.js lines 139-197) -/

/-- A parsed row of schedule.csv as csv-parser delivers it; a missing field is
the empty string (falsy in the `!row.Date || !row.Time || !row.Title` check). -/
structure ScheduleRow where
  Title : JsString
  Date : JsString
  Time : JsString
  URL : JsString
  SeriesTag : JsString
deriving DecidableEq

/-- `/^\d{2}:\d{2}$/` (src/updateGCal.js line 153). -/
def timeRegexOk : JsString → Bool
  | [h1, h2, c, m1, m2] =>
    isAsciiDigit h1 && isAsciiDigit h2 && (c = ':') && isAsciiDigit m1 && isAsciiDigit m2
  | _ => false

/-- Parse a `YYYY-MM-DD` string into a valid civil date; `none` exactly when
`new Date(date + "T" + time)` would be an Invalid Date for date reasons. -/
def parseDate : JsString → Option CivilDate
  | [a, b, c, d, s1, e, f, s2, g, h] =>
    if isAsciiDigit a && isAsciiDigit b && isAsciiDigit c && isAsciiDigit d &&
        (s1 = '-') && isAsciiDigit e && isAsciiDigit f && (s2 = '-') &&
        isAsciiDigit g && isAsciiDigit h then
      let y := digitsToNat [a, b, c, d]
      let m := digitsToNat [e, f]
      let dd := digitsToNat [g, h]
      if 1 ≤ m ∧ m ≤ 12 ∧ 1 ≤ dd ∧ dd ≤ daysInMonth y m then some ⟨y, m, dd⟩
      else none
    else none
  | _ => none

/-- Parse an `HH:MM` string (one that passed the regex) into hours/minutes;
`none` when the wall-clock values are out of range (Invalid Date). -/
def parseTime (t : JsString) : Option (Nat × Nat) :=
  match t with
  | [h1, h2, _, m1, m2] =>
    let hh := digitsToNat [h1, h2]
    let mm := digitsToNat [m1, m2]
    if hh < 24 ∧ mm < 60 then some (hh, mm) else none
  | _ => none

/-- The runtime lookup of src/updateGCal.js line 164:
`runtimesMap.get(row.Title) || runtimesMap.get(row.Title.trim())` — a missing
or empty (falsy) first hit falls back to the trimmed title. -/
def runtimeLookup (m : JsString → Option JsString) (title : JsString) : Option JsString :=
  match m title with
  | some v => if v.isEmpty then m (jsTrim title) else some v
  | none => m (jsTrim title)

/-- A candidate calendar event as the merge stage builds it. -/
structure MergedEvent where
  summary : JsString
  startMs : Nat
  endMs : Nat
deriving DecidableEq

/-- One iteration of the schedule-row loop (src/updateGCal.js lines 139-197):
skip on missing fields, on a date before `today`, or on a malformed time;
otherwise build the event with the formatted title and the duration policy.
Rows that pass these checks but denote no valid calendar instant make
`toISOString()` throw at line 187, aborting the run before any calendar
mutation; they yield `none` here, matching the run's (absent) calendar
effect. -/
def processRow (today : JsString) (runtimesMap : JsString → Option JsString)
    (row : ScheduleRow) : Option MergedEvent :=
  if row.Title.isEmpty || row.Date.isEmpty || row.Time.isEmpty then none
  else if jsStrLt row.Date today then none
  else if !timeRegexOk row.Time then none
  else
    match parseDate row.Date, parseTime row.Time with
    | some d, some (hh, mm) =>
      some ⟨formatString row.Title, dateTimeToMs d.year d.month d.day hh mm,
        computeEndMs (dateTimeToMs d.year d.month d.day hh mm)
          (runtimeLookup runtimesMap row.Title)⟩
    | _, _ => none

/-- C4 counterexample: the code captures `today` from `toISOString()`, which
renders the UTC date, not the venue time zone.  At the instant
2025-05-02 01:00 UTC the venue-local (UTC−7, America/Los_Angeles in May)
date is still 2025-05-01, so a screening dated exactly "today in the venue
time zone" is strictly below the code's cutoff string "2025-05-02" and is
dropped by the merge loop — the claim predicts it is kept. -/
theorem c4_counterexample :
    venueLocalDate ⟨⟨2025, 5, 2⟩, 60⟩ 420 = ⟨2025, 5, 1⟩ ∧
    todayStrOfInstant ⟨⟨2025, 5, 2⟩, 60⟩ = "2025-05-02".data ∧
    keepByDate (dateStr (venueLocalDate ⟨⟨2025, 5, 2⟩, 60⟩ 420))
      (todayStrOfInstant ⟨⟨2025, 5, 2⟩, 60⟩) = false ∧
    processRow (todayStrOfInstant ⟨⟨2025, 5, 2⟩, 60⟩) (fun _ => none)
      ⟨"Film".data, "2025-05-01".data, "19:00".data, [], []⟩ = none := by
  refine ⟨by decide, by decide, by decide, by decide⟩

/-- C4 (amended): with the cutoff `today` captured once per run as the
current UTC date (`toISOString().split('T')[0]`), an event is kept by the
date check iff its date is not below `today` in calendar order; an event
dated exactly `today` is kept, an event dated the day before `today` is
dropped, and the decision never depends on the row's time-of-day: any row
whose date is below `today` is skipped whatever its `Time`, and any row the
merge loop accepts has date `≥ today`. -/
theorem c4_horizon_boundary :
    (∀ (t : RunInstant) (a : CivilDate),
      a.year ≤ 9999 → a.month ≤ 99 → a.day ≤ 99 →
      t.utcDate.year ≤ 9999 → t.utcDate.month ≤ 99 → t.utcDate.day ≤ 99 →
      keepByDate (dateStr a) (todayStrOfInstant t) = !(dateLt a t.utcDate)) ∧
    (∀ t : RunInstant,
      keepByDate (todayStrOfInstant t) (todayStrOfInstant t) = true) ∧
    (∀ t : RunInstant, ValidCivilDate t.utcDate →
      keepByDate (dateStr (prevDay t.utcDate)) (todayStrOfInstant t) = false) ∧
    (∀ (today : JsString) (rmap : JsString → Option JsString) (row : ScheduleRow),
      jsStrLt row.Date today = true → processRow today rmap row = none) ∧
    (∀ (today : JsString) (rmap : JsString → Option JsString) (row : ScheduleRow)
      (ev : MergedEvent),
      processRow today rmap row = some ev → jsStrLt row.Date today = false) := by
  refine ⟨?_, ?_, ?_, ?_, ?_⟩
  · intro t a h1 h2 h3 h4 h5 h6
    unfold keepByDate todayStrOfInstant
    rw [jsStrLt_dateStr a t.utcDate h1 h4 h2 h5 h3 h6]
  · intro t
    unfold keepByDate
    rw [jsStrLt_irrefl]
    rfl
  · intro t hv
    obtain ⟨b1, b2, b3⟩ := prevDay_bounds t.utcDate hv
    obtain ⟨v1, v2, v3, v4, v5, v6⟩ := hv
    have h31 := daysInMonth_le_31 t.utcDate.year t.utcDate.month
    unfold keepByDate todayStrOfInstant
    rw [jsStrLt_dateStr (prevDay t.utcDate) t.utcDate b1 (by omega) b2 (by omega) b3 (by omega)]
    rw [prevDay_dateLt t.utcDate ⟨v1, v2, v3, v4, v5, v6⟩]
    rfl
  · intro today rmap row h
    unfold processRow
    by_cases hf : row.Title.isEmpty || row.Date.isEmpty || row.Time.isEmpty
    · rw [if_pos hf]
    · rw [if_neg hf, if_pos h]
  · intro today rmap row ev h
    by_cases hlt : jsStrLt row.Date today
    · exfalso
      unfold processRow at h
      by_cases hf : row.Title.isEmpty || row.Date.isEmpty || row.Time.isEmpty
      · rw [if_pos hf] at h
        exact Option.noConfusion h
      · rw [if_neg hf, if_pos hlt] at h
        exact Option.noConfusion h
    · simpa using hlt

/-- C4 witness: at the instant 2025-05-02 01:00 UTC, a row dated 2025-05-02
(today) is at or above the cutoff, and a row dated 2025-05-01 (yesterday in
UTC) is below it and dropped whatever its time. -/
theorem c4_witness :
    keepByDate (todayStrOfInstant ⟨⟨2025, 5, 2⟩, 60⟩)
      (todayStrOfInstant ⟨⟨2025, 5, 2⟩, 60⟩) = true ∧
    keepByDate (dateStr (prevDay (⟨2025, 5, 2⟩ : CivilDate)))
      (todayStrOfInstant ⟨⟨2025, 5, 2⟩, 60⟩) = false ∧
    processRow (todayStrOfInstant ⟨⟨2025, 5, 2⟩, 60⟩) (fun _ => none)
      ⟨"Film".data, "2025-05-01".data, "23:59".data, [], []⟩ = none :=
  ⟨c4_horizon_boundary.2.1 ⟨⟨2025, 5, 2⟩, 60⟩,
    c4_horizon_boundary.2.2.1 ⟨⟨2025, 5, 2⟩, 60⟩ (by decide),
    c4_horizon_boundary.2.2.2.1 (todayStrOfInstant ⟨⟨2025, 5, 2⟩, 60⟩) (fun _ => none)
      ⟨"Film".data, "2025-05-01".data, "23:59".data, [], []⟩ (by decide)⟩

theorem lt_computeEndMs (s : Nat) (rv : Option JsString) : s < computeEndMs s rv := by
  cases rv with
  | none =>
    show s < s + 2 * 60 * 60000
    omega
  | some rt =>
    rw [computeEndMs_eq]
    rcases hm : (if rt.isEmpty = true then none else matchRuntime rt) with _ | n
    · show s < s + 2 * 60 * 60000
      omega
    · show s < s + (n + 15) * 60000
      have : 0 < (n + 15) * 60000 := by positivity
      omega

/-- C9: every event the merge stage constructs from a row with a valid date
and valid time satisfies `startDateTime < endDateTime`, whatever the runtime
text (parseable or not). -/
theorem c9_event_interval :
    ∀ (today : JsString) (rmap : JsString → Option JsString) (row : ScheduleRow)
      (ev : MergedEvent),
      processRow today rmap row = some ev → ev.startMs < ev.endMs := by
  intro today rmap row ev h
  unfold processRow at h
  split_ifs at h
  split at h
  · injection h with h2
    subst h2
    exact lt_computeEndMs _ _
  · exact Option.noConfusion h

/-- C9 witness: the concrete row (Film, 2025-05-02, 19:00) with no runtime
entry yields an event whose start precedes its end. -/
theorem c9_witness :
    (MergedEvent.mk ("Film".data) (dateTimeToMs 2025 5 2 19 0)
        (dateTimeToMs 2025 5 2 19 0 + 2 * 60 * 60000)).startMs <
      (MergedEvent.mk ("Film".data) (dateTimeToMs 2025 5 2 19 0)
        (dateTimeToMs 2025 5 2 19 0 + 2 * 60 * 60000)).endMs :=
  c9_event_interval ("2025-05-02".data) (fun _ => none)
    ⟨"Film".data, "2025-05-02".data, "19:00".data, [], []⟩
    (MergedEvent.mk ("Film".data) (dateTimeToMs 2025 5 2 19 0)
      (dateTimeToMs 2025 5 2 19 0 + 2 * 60 * 60000))
    (by decide)

/-! ## The calendar store and the reconciliation pass
(src/updateGCal.js lines 227-262 and 283-323) -/

/-- An entry of the remote Google Calendar. -/
structure CalEntry where
  id : Nat
  summary : JsString
  startMs : Nat
deriving DecidableEq

/-- The remote calendar store: its entries plus the id it will assign to the
next inserted entry (Google event ids are unique and never reused). -/
structure CalState where
  entries : List CalEntry
  nextId : Nat
deriving DecidableEq

/-- Per-call outcomes supplied by the environment: `none` means the API call
succeeds, `some msg` that it fails with that error message.  Deletes are
keyed by event id, inserts by their 0-based position in the insertion loop. -/
structure CalOracle where
  delRes : Nat → Option JsString
  insRes : Nat → Option JsString

/-- The all-success environment. -/
def allOk : CalOracle := ⟨fun _ => none, fun _ => none⟩

/-- One trace record per attempted calendar mutation, in execution order. -/
inductive CalOp where
  | deleteAttempt (id : Nat) (err : Option JsString)
  | insertAttempt (summary : JsString) (err : Option JsString) (authHints : Bool)
deriving DecidableEq

/-- `calendar.events.list({timeMin: now, singleEvents: true, ...})`: the
future part of the calendar — entries starting at or after `nowMs`. -/
def listFutureEvents (entries : List CalEntry) (nowMs : Nat) : List CalEntry :=
  entries.filter (fun e => nowMs ≤ e.startMs)

/-- The deletion loop of `deleteUpcomingEvents` (lines 305-316): each listed
event is deleted in its own try/catch; a failure is logged and the loop
continues with the rest. -/
def deleteLoop (delRes : Nat → Option JsString) :
    List CalEntry → List CalEntry → List CalEntry × List CalOp
  | [], entries => (entries, [])
  | e :: rest, entries =>
    match delRes e.id with
    | none =>
      let r := deleteLoop delRes rest (entries.filter (fun x => x.id ≠ e.id))
      (r.1, CalOp.deleteAttempt e.id none :: r.2)
    | some msg =>
      let r := deleteLoop delRes rest entries
      (r.1, CalOp.deleteAttempt e.id (some msg) :: r.2)

/-- `deleteUpcomingEvents(calendar)` (lines 283-323): list the upcoming
events, then best-effort delete each one. -/
def deleteUpcomingEvents (st : CalState) (nowMs : Nat) (delRes : Nat → Option JsString) :
    CalState × List CalOp :=
  let r := deleteLoop delRes (listFutureEvents st.entries nowMs) st.entries
  (⟨r.1, st.nextId⟩, r.2)

/-- The five authentication-error substrings of lines 248-252. -/
def authErrorSubstrings : List JsString :=
  ["No refresh token is set".data, "invalid_grant".data, "invalid_request".data,
   "invalid_client".data, "unauthorized".data]

/-- `hay.includes(needle)` (JS substring containment). -/
def jsIncludes (needle : JsString) : JsString → Bool
  | [] => needle.isEmpty
  | c :: rest => needle.isPrefixOf (c :: rest) || jsIncludes needle rest

/-- The auth-hint condition of lines 244-254: the error message contains one
of the known authentication-error substrings. -/
def hasAuthHint (msg : JsString) : Bool :=
  authErrorSubstrings.any (fun sub => jsIncludes sub msg)

/-- Result of a reconciliation pass: final store, `successCount`,
`failureCount`, and the trace of attempted mutations. -/
structure ReconcileResult where
  state : CalState
  successCount : Nat
  failureCount : Nat
  trace : List CalOp
deriving DecidableEq

/-- The insertion loop of `connectToCalendar` (lines 233-262): each event is
inserted in its own try/catch; a success bumps `successCount`, a failure is
logged (with auth troubleshooting hints when the message matches) and bumps
`failureCount`; the loop always continues with the remaining events. -/
def insertLoop (insRes : Nat → Option JsString) :
    List MergedEvent → CalState → Nat → ReconcileResult
  | [], st, _ => ⟨st, 0, 0, []⟩
  | ev :: rest, st, i =>
    match insRes i with
    | none =>
      let r := insertLoop insRes rest
        ⟨st.entries ++ [⟨st.nextId, ev.summary, ev.startMs⟩], st.nextId + 1⟩ (i + 1)
      ⟨r.state, r.successCount + 1, r.failureCount,
        CalOp.insertAttempt ev.summary none false :: r.trace⟩
    | some msg =>
      let r := insertLoop insRes rest st (i + 1)
      ⟨r.state, r.successCount, r.failureCount + 1,
        CalOp.insertAttempt ev.summary (some msg) (hasAuthHint msg) :: r.trace⟩

/-- The reconciliation pass of `connectToCalendar` after the guards
(lines 227-262): delete all upcoming events, then insert the kept set. -/
def reconcile (st : CalState) (kept : List MergedEvent) (g : CalOracle) (nowMs : Nat) :
    ReconcileResult :=
  let d := deleteUpcomingEvents st nowMs g.delRes
  let r := insertLoop g.insRes kept d.1 0
  ⟨r.state, r.successCount, r.failureCount, d.2 ++ r.trace⟩

/-- The attempt made by a trace record, outcome forgotten: which entry a
delete targeted, or which summary an insert carried. -/
def opKind : CalOp → Nat ⊕ JsString
  | CalOp.deleteAttempt id _ => Sum.inl id
  | CalOp.insertAttempt s _ _ => Sum.inr s

/-! ## Facts about the deletion and insertion loops -/

theorem deleteLoop_trace (delRes : Nat → Option JsString) (ds entries : List CalEntry) :
    (deleteLoop delRes ds entries).2
      = ds.map (fun e => CalOp.deleteAttempt e.id (delRes e.id)) := by
  induction ds generalizing entries with
  | nil => rfl
  | cons e rest ih =>
    unfold deleteLoop
    cases hm : delRes e.id with
    | none =>
      simp only [List.map_cons, hm]
      rw [← ih (entries.filter (fun x => x.id ≠ e.id))]
    | some msg =>
      simp only [List.map_cons, hm]
      rw [← ih entries]

theorem deleteLoop_entries (delRes : Nat → Option JsString) (ds entries : List CalEntry) :
    (deleteLoop delRes ds entries).1
      = entries.filter
          (fun x => !(ds.any (fun d => (delRes d.id).isNone && d.id == x.id))) := by
  induction ds generalizing entries with
  | nil =>
    show entries = entries.filter (fun _ => !false)
    simp
  | cons e rest ih =>
    unfold deleteLoop
    cases hm : delRes e.id with
    | none =>
      show (deleteLoop delRes rest (entries.filter (fun x => x.id ≠ e.id))).1 = _
      rw [ih, List.filter_filter]
      apply List.filter_congr
      intro x _
      simp only [hm, Option.isNone_none, Bool.true_and, List.any_cons, Bool.not_or,
        decide_not]
      by_cases hx : e.id = x.id
      · simp [hx]
      · have hx2 : x.id ≠ e.id := fun h2 => hx h2.symm
        simp [hx, hx2]
    | some msg =>
      show (deleteLoop delRes rest entries).1 = _
      rw [ih]
      apply List.filter_congr
      intro x _
      simp only [hm, Option.isNone_some, Bool.false_and, List.any_cons, Bool.false_or]

/-- Entries created by an all-successful insertion loop: fresh consecutive
ids starting at `n`, carrying each kept event's summary and start. -/
def mkInserted (n : Nat) : List MergedEvent → List CalEntry
  | [] => []
  | ev :: rest => ⟨n, ev.summary, ev.startMs⟩ :: mkInserted (n + 1) rest

theorem insertLoop_allOk (kept : List MergedEvent) :
    ∀ (st : CalState) (i : Nat),
      insertLoop (fun _ => none) kept st i =
        ⟨⟨st.entries ++ mkInserted st.nextId kept, st.nextId + kept.length⟩,
          kept.length, 0,
          kept.map (fun ev => CalOp.insertAttempt ev.summary none false)⟩ := by
  induction kept with
  | nil =>
    intro st i
    show (⟨st, 0, 0, []⟩ : ReconcileResult) = _
    cases st with
    | mk e n => simp [mkInserted]
  | cons ev rest ih =>
    intro st i
    show (⟨(insertLoop (fun _ => none) rest
        ⟨st.entries ++ [⟨st.nextId, ev.summary, ev.startMs⟩], st.nextId + 1⟩ (i + 1)).state,
      (insertLoop (fun _ => none) rest
        ⟨st.entries ++ [⟨st.nextId, ev.summary, ev.startMs⟩], st.nextId + 1⟩ (i + 1)).successCount + 1,
      (insertLoop (fun _ => none) rest
        ⟨st.entries ++ [⟨st.nextId, ev.summary, ev.startMs⟩], st.nextId + 1⟩ (i + 1)).failureCount,
      CalOp.insertAttempt ev.summary none false ::
        (insertLoop (fun _ => none) rest
          ⟨st.entries ++ [⟨st.nextId, ev.summary, ev.startMs⟩], st.nextId + 1⟩ (i + 1)).trace⟩
        : ReconcileResult) = _
    have hih := ih ⟨st.entries ++ [CalEntry.mk st.nextId ev.summary ev.startMs],
      st.nextId + 1⟩ (i + 1)
    rw [hih]
    simp only [mkInserted, List.map_cons, List.append_assoc, List.singleton_append,
      List.length_cons]
    have hn : st.nextId + 1 + rest.length = st.nextId + (rest.length + 1) := by omega
    rw [hn]

theorem insertLoop_trace_kinds (insRes : Nat → Option JsString) (kept : List MergedEvent) :
    ∀ (st : CalState) (i : Nat),
      (insertLoop insRes kept st i).trace.map opKind
        = kept.map (fun ev => Sum.inr ev.summary) := by
  induction kept with
  | nil => intro st i; rfl
  | cons ev rest ih =>
    intro st i
    unfold insertLoop
    cases hm : insRes i with
    | none =>
      dsimp only
      simp only [List.map_cons, opKind]
      rw [ih]
    | some msg =>
      dsimp only
      simp only [List.map_cons, opKind]
      rw [ih]

theorem insertLoop_counts (insRes : Nat → Option JsString) (kept : List MergedEvent) :
    ∀ (st : CalState) (i : Nat),
      (insertLoop insRes kept st i).successCount
          + (insertLoop insRes kept st i).failureCount = kept.length ∧
      (insertLoop insRes kept st i).failureCount
        = ((List.range kept.length).filter (fun j => (insRes (i + j)).isSome)).length := by
  induction kept with
  | nil =>
    intro st i
    exact ⟨rfl, rfl⟩
  | cons ev rest ih =>
    intro st i
    have hshift : ∀ st2 : CalState,
        (insertLoop insRes rest st2 (i + 1)).failureCount
          = ((List.range rest.length).filter (fun j => (insRes (i + (j + 1))).isSome)).length := by
      intro st2
      rw [(ih st2 (i + 1)).2]
      congr 1
      apply List.filter_congr
      intro j _
      have : i + 1 + j = i + (j + 1) := by omega
      rw [this]
    have hrange : (List.range (rest.length + 1)).filter (fun j => (insRes (i + j)).isSome)
        = (if (insRes (i + 0)).isSome then [0] else [])
          ++ (List.map Nat.succ ((List.range rest.length).filter
                (fun j => (insRes (i + (j + 1))).isSome))) := by
      rw [List.range_succ_eq_map, List.filter_cons]
      rw [List.filter_map]
      have : ((fun j => (insRes (i + j)).isSome) ∘ Nat.succ)
          = fun j => (insRes (i + (j + 1))).isSome := by
        funext j
        simp [Function.comp]
      rw [this]
      split_ifs with h
      · rfl
      · rfl
    unfold insertLoop
    cases hm : insRes i with
    | none =>
      dsimp only
      constructor
      · have := (ih ⟨st.entries ++ [CalEntry.mk st.nextId ev.summary ev.startMs],
          st.nextId + 1⟩ (i + 1)).1
        simp only [List.length_cons]
        omega
      · rw [hshift]
        rw [List.length_cons, hrange]
        have h0 : (insRes (i + 0)).isSome = false := by
          simpa using congrArg Option.isSome hm
        rw [h0]
        simp
    | some msg =>
      dsimp only
      constructor
      · have := (ih st (i + 1)).1
        simp only [List.length_cons]
        omega
      · rw [hshift]
        rw [List.length_cons, hrange]
        have h0 : (insRes (i + 0)).isSome = true := by
          simpa using congrArg Option.isSome hm
        rw [h0]
        simp

theorem insertLoop_entries_prefix (insRes : Nat → Option JsString) (kept : List MergedEvent) :
    ∀ (st : CalState) (i : Nat),
      st.entries <+: (insertLoop insRes kept st i).state.entries := by
  induction kept with
  | nil => intro st i; exact List.prefix_refl _
  | cons ev rest ih =>
    intro st i
    unfold insertLoop
    cases hm : insRes i with
    | none =>
      dsimp only
      have h2 := ih ⟨st.entries ++ [CalEntry.mk st.nextId ev.summary ev.startMs],
        st.nextId + 1⟩ (i + 1)
      exact (List.prefix_append st.entries _).trans h2
    | some msg =>
      dsimp only
      exact ih st (i + 1)

theorem insertLoop_mem_of_ok (insRes : Nat → Option JsString) (kept : List MergedEvent) :
    ∀ (st : CalState) (i j : Nat) (hj : j < kept.length), insRes (i + j) = none →
      ∃ en ∈ (insertLoop insRes kept st i).state.entries,
        en.summary = (kept.get ⟨j, hj⟩).summary ∧
        en.startMs = (kept.get ⟨j, hj⟩).startMs := by
  induction kept with
  | nil =>
    intro st i j hj
    exact absurd hj (by simp)
  | cons ev rest ih =>
    intro st i j hj hok
    cases j with
    | zero =>
      have hm : insRes i = none := by simpa using hok
      unfold insertLoop
      rw [hm]
      dsimp only
      refine ⟨CalEntry.mk st.nextId ev.summary ev.startMs, ?_, rfl, rfl⟩
      have hpre := insertLoop_entries_prefix insRes rest
        ⟨st.entries ++ [CalEntry.mk st.nextId ev.summary ev.startMs], st.nextId + 1⟩ (i + 1)
      refine hpre.subset ?_
      simp
    | succ j =>
      have hok2 : insRes ((i + 1) + j) = none := by
        have : (i + 1) + j = i + (j + 1) := by omega
        rw [this]
        exact hok
      unfold insertLoop
      cases hm : insRes i with
      | none =>
        dsimp only
        exact ih ⟨st.entries ++ [CalEntry.mk st.nextId ev.summary ev.startMs],
          st.nextId + 1⟩ (i + 1) j (by simpa using hj) hok2
      | some msg =>
        dsimp only
        exact ih st (i + 1) j (by simpa using hj) hok2

theorem insertLoop_mem_old_or_fresh (insRes : Nat → Option JsString)
    (kept : List MergedEvent) :
    ∀ (st : CalState) (i : Nat) (x : CalEntry),
      x ∈ (insertLoop insRes kept st i).state.entries →
      x ∈ st.entries ∨ st.nextId ≤ x.id := by
  induction kept with
  | nil =>
    intro st i x hx
    exact Or.inl hx
  | cons ev rest ih =>
    intro st i x hx
    unfold insertLoop at hx
    cases hm : insRes i with
    | none =>
      rw [hm] at hx
      dsimp only at hx
      rcases ih ⟨st.entries ++ [CalEntry.mk st.nextId ev.summary ev.startMs],
          st.nextId + 1⟩ (i + 1) x hx with h2 | h2
      · rcases List.mem_append.mp h2 with h3 | h3
        · exact Or.inl h3
        · right
          simp at h3
          rw [h3]
      · right
        dsimp only at h2
        omega
    | some msg =>
      rw [hm] at hx
      dsimp only at hx
      exact ih st (i + 1) x hx

theorem insertLoop_hint (insRes : Nat → Option JsString) (kept : List MergedEvent) :
    ∀ (st : CalState) (i : Nat) (s msg : JsString) (h : Bool),
      CalOp.insertAttempt s (some msg) h ∈ (insertLoop insRes kept st i).trace →
      h = hasAuthHint msg := by
  induction kept with
  | nil =>
    intro st i s msg h hmem
    exact absurd hmem (by simp [insertLoop])
  | cons ev rest ih =>
    intro st i s msg h hmem
    unfold insertLoop at hmem
    cases hm : insRes i with
    | none =>
      rw [hm] at hmem
      dsimp only at hmem
      rcases List.mem_cons.mp hmem with h2 | h2
      · exact absurd (CalOp.insertAttempt.injEq _ _ _ _ _ _ ▸ h2) (by simp)
      · exact ih _ (i + 1) s msg h h2
    | some m2 =>
      rw [hm] at hmem
      dsimp only at hmem
      rcases List.mem_cons.mp hmem with h2 | h2
      · injection h2 with e1 e2 e3
        injection e2 with e2
        rw [e3, e2]
      · exact ih st (i + 1) s msg h h2

/-- `hay.includes(needle)` holds exactly when `needle` occurs contiguously
inside `hay`. -/
theorem jsIncludes_iff (needle hay : JsString) :
    jsIncludes needle hay = true ↔ ∃ pre post, hay = pre ++ needle ++ post := by
  induction hay with
  | nil =>
    show needle.isEmpty = true ↔ _
    rw [List.isEmpty_iff]
    constructor
    · rintro rfl
      exact ⟨[], [], rfl⟩
    · rintro ⟨pre, post, hpp⟩
      cases pre <;> cases needle <;> simp_all
  | cons c rest ih =>
    show (needle.isPrefixOf (c :: rest) || jsIncludes needle rest) = true ↔ _
    rw [Bool.or_eq_true, List.isPrefixOf_iff_prefix, ih]
    constructor
    · rintro (⟨post, hpost⟩ | ⟨pre, post, rfl⟩)
      · exact ⟨[], post, by simpa using hpost.symm⟩
      · exact ⟨c :: pre, post, rfl⟩
    · rintro ⟨pre, post, hpp⟩
      cases pre with
      | nil =>
        left
        exact ⟨post, by simpa using hpp.symm⟩
      | cons c2 pre2 =>
        right
        simp only [List.cons_append, List.cons.injEq] at hpp
        exact ⟨pre2, post, hpp.2⟩

/-- The auth-hint flag holds exactly when the message contains one of the
five known authentication-error substrings. -/
theorem hasAuthHint_iff (msg : JsString) :
    hasAuthHint msg = true ↔
      ∃ sub ∈ authErrorSubstrings, ∃ pre post, msg = pre ++ sub ++ post := by
  unfold hasAuthHint
  rw [List.any_eq_true]
  constructor
  · rintro ⟨sub, hsub, hinc⟩
    exact ⟨sub, hsub, (jsIncludes_iff sub msg).mp hinc⟩
  · rintro ⟨sub, hsub, hdec⟩
    exact ⟨sub, hsub, (jsIncludes_iff sub msg).mpr hdec⟩

theorem mkInserted_map_pair (kept : List MergedEvent) :
    ∀ n, (mkInserted n kept).map (fun e => (e.summary, e.startMs))
      = kept.map (fun ev => (ev.summary, ev.startMs)) := by
  induction kept with
  | nil => intro n; rfl
  | cons ev rest ih =>
    intro n
    show (ev.summary, ev.startMs) :: (mkInserted (n + 1) rest).map _ = _
    rw [ih (n + 1)]
    rfl

theorem mkInserted_mem (kept : List MergedEvent) :
    ∀ n x, x ∈ mkInserted n kept →
      (∃ ev ∈ kept, x.summary = ev.summary ∧ x.startMs = ev.startMs) ∧ n ≤ x.id := by
  induction kept with
  | nil =>
    intro n x hx
    exact absurd hx (by simp [mkInserted])
  | cons ev rest ih =>
    intro n x hx
    rcases List.mem_cons.mp hx with h2 | h2
    · subst h2
      exact ⟨⟨ev, List.mem_cons_self ev rest, rfl, rfl⟩, le_refl n⟩
    · obtain ⟨⟨ev2, hev2, hs, hst⟩, hid⟩ := ih (n + 1) x h2
      exact ⟨⟨ev2, List.mem_cons_of_mem ev hev2, hs, hst⟩, by omega⟩

/-- With all deletes succeeding and unique event ids, the deletion pass
removes exactly the future entries. -/
theorem deleteAll_entries (entries : List CalEntry) (nowMs : Nat)
    (hnodup : (entries.map (fun e => e.id)).Nodup) :
    (deleteLoop (fun _ => none) (listFutureEvents entries nowMs) entries).1
      = entries.filter (fun x => !(decide (nowMs ≤ x.startMs))) := by
  rw [deleteLoop_entries]
  apply List.filter_congr
  intro x hx
  congr 1
  rw [Bool.eq_iff_iff, List.any_eq_true, decide_eq_true_eq]
  constructor
  · rintro ⟨d, hd, hdx⟩
    simp only [Option.isNone_none, Bool.true_and, beq_iff_eq] at hdx
    have hdm := List.mem_filter.mp hd
    have : d = x := List.inj_on_of_nodup_map hnodup hdm.1 hx hdx
    subst this
    simpa using hdm.2
  · intro hfut
    refine ⟨x, List.mem_filter.mpr ⟨hx, by simpa using hfut⟩, ?_⟩
    simp

/-- C1: with every delete and insert succeeding, after `Reconcile` the
calendar's future listing consists of exactly the newly inserted events, in
order, and contains none of the pre-existing entries; and the trace attempts
every deletion before any insertion begins. -/
theorem c1_reconciliation_ownership :
    ∀ (st : CalState) (kept : List MergedEvent) (nowMs : Nat),
      (st.entries.map (fun e => e.id)).Nodup →
      (∀ e ∈ st.entries, e.id < st.nextId) →
      (∃ e ∈ st.entries, nowMs ≤ e.startMs) →
      kept ≠ [] →
      (∀ ev ∈ kept, nowMs ≤ ev.startMs) →
      ((listFutureEvents (reconcile st kept allOk nowMs).state.entries nowMs).map
          (fun e => (e.summary, e.startMs))
        = kept.map (fun ev => (ev.summary, ev.startMs))) ∧
      (∀ e ∈ listFutureEvents (reconcile st kept allOk nowMs).state.entries nowMs,
        e.id ∉ st.entries.map (fun x => x.id)) ∧
      ((reconcile st kept allOk nowMs).trace
        = (listFutureEvents st.entries nowMs).map (fun e => CalOp.deleteAttempt e.id none)
          ++ kept.map (fun ev => CalOp.insertAttempt ev.summary none false)) := by
  intro st kept nowMs hnodup hfresh _hfut _hne hkept
  have hdel : deleteUpcomingEvents st nowMs allOk.delRes
      = (⟨⟨st.entries.filter (fun x => !(decide (nowMs ≤ x.startMs))), st.nextId⟩,
          (listFutureEvents st.entries nowMs).map (fun e => CalOp.deleteAttempt e.id none)⟩
        : CalState × List CalOp) := by
    unfold deleteUpcomingEvents
    simp only [allOk]
    rw [deleteAll_entries st.entries nowMs hnodup, deleteLoop_trace]
  have hrec : reconcile st kept allOk nowMs
      = ⟨⟨st.entries.filter (fun x => !(decide (nowMs ≤ x.startMs))) ++ mkInserted st.nextId kept,
          st.nextId + kept.length⟩,
        kept.length, 0,
        (listFutureEvents st.entries nowMs).map (fun e => CalOp.deleteAttempt e.id none)
          ++ kept.map (fun ev => CalOp.insertAttempt ev.summary none false)⟩ := by
    unfold reconcile
    rw [hdel]
    dsimp only
    simp only [allOk]
    rw [insertLoop_allOk kept ⟨st.entries.filter (fun x => !(decide (nowMs ≤ x.startMs))),
      st.nextId⟩ 0]
  have hlist : listFutureEvents (reconcile st kept allOk nowMs).state.entries nowMs
      = mkInserted st.nextId kept := by
    rw [hrec]
    show (st.entries.filter (fun x => !(decide (nowMs ≤ x.startMs)))
        ++ mkInserted st.nextId kept).filter (fun e => decide (nowMs ≤ e.startMs))
      = mkInserted st.nextId kept
    rw [List.filter_append]
    have h1 : (st.entries.filter (fun x => !(decide (nowMs ≤ x.startMs)))).filter
        (fun e => decide (nowMs ≤ e.startMs)) = [] := by
      rw [List.filter_eq_nil_iff]
      intro a ha
      have := (List.mem_filter.mp ha).2
      simp only [Bool.not_eq_true', decide_eq_false_iff_not] at this
      simpa using this
    have h2 : (mkInserted st.nextId kept).filter (fun e => decide (nowMs ≤ e.startMs))
        = mkInserted st.nextId kept := by
      rw [List.filter_eq_self]
      intro a ha
      obtain ⟨⟨ev, hev, _, hst⟩, _⟩ := mkInserted_mem kept st.nextId a ha
      rw [decide_eq_true_eq, hst]
      exact hkept ev hev
    rw [h1, h2, List.nil_append]
  refine ⟨?_, ?_, ?_⟩
  · rw [hlist, mkInserted_map_pair]
  · intro e he
    rw [hlist] at he
    obtain ⟨-, hid⟩ := mkInserted_mem kept st.nextId e he
    intro hmem
    rcases List.mem_map.mp hmem with ⟨x, hx, hxe⟩
    have := hfresh x hx
    omega
  · rw [hrec]

/-- C1 witness: the spec scenario — a calendar pre-seeded with 3 future dummy
events and a kept set of 2 new events; after `Reconcile` the future listing
is exactly the 2 inserted events. -/
theorem c1_witness :
    (listFutureEvents
        (reconcile
          ⟨[⟨1, "Old1".data, 100⟩, ⟨2, "Old2".data, 200⟩, ⟨3, "Old3".data, 300⟩], 10⟩
          [⟨"New1".data, 150, 250⟩, ⟨"New2".data, 260, 400⟩] allOk 50).state.entries
        50).map (fun e => (e.summary, e.startMs))
      = [("New1".data, 150), ("New2".data, 260)] := by
  have h := c1_reconciliation_ownership
    ⟨[⟨1, "Old1".data, 100⟩, ⟨2, "Old2".data, 200⟩, ⟨3, "Old3".data, 300⟩], 10⟩
    [⟨"New1".data, 150, 250⟩, ⟨"New2".data, 260, 400⟩] 50
    (by decide) (by decide) (by decide) (by decide) (by decide)
  rw [h.1]
  rfl

/-- C8: under an arbitrary per-call failure environment, the reconciliation
pass still attempts every delete and then every insert in order (no sibling
operation is aborted); insert successes and failures partition the kept set
and each failed insert is logged with troubleshooting hints exactly when its
message contains a known authentication-error substring; and no rollback
occurs: every successful insert is present in the final store and every
successfully deleted future entry stays deleted, whatever other calls failed. -/
theorem c8_failure_isolation :
    ∀ (st : CalState) (kept : List MergedEvent) (g : CalOracle) (nowMs : Nat),
      ((reconcile st kept g nowMs).trace.map opKind
        = (listFutureEvents st.entries nowMs).map (fun e => Sum.inl e.id)
          ++ kept.map (fun ev => Sum.inr ev.summary)) ∧
      ((reconcile st kept g nowMs).successCount + (reconcile st kept g nowMs).failureCount
        = kept.length) ∧
      ((reconcile st kept g nowMs).failureCount
        = ((List.range kept.length).filter (fun j => (g.insRes j).isSome)).length) ∧
      (∀ (s msg : JsString) (hnt : Bool),
        CalOp.insertAttempt s (some msg) hnt ∈ (reconcile st kept g nowMs).trace →
        (hnt = true ↔ ∃ sub ∈ authErrorSubstrings, ∃ pre post, msg = pre ++ sub ++ post)) ∧
      (∀ (j : Nat) (hj : j < kept.length), g.insRes j = none →
        ∃ en ∈ (reconcile st kept g nowMs).state.entries,
          en.summary = (kept.get ⟨j, hj⟩).summary ∧
          en.startMs = (kept.get ⟨j, hj⟩).startMs) ∧
      ((∀ e ∈ st.entries, e.id < st.nextId) →
        ∀ e ∈ st.entries, nowMs ≤ e.startMs → g.delRes e.id = none →
        e ∉ (reconcile st kept g nowMs).state.entries) := by
  intro st kept g nowMs
  have htrace : (reconcile st kept g nowMs).trace
      = (deleteUpcomingEvents st nowMs g.delRes).2
        ++ (insertLoop g.insRes kept (deleteUpcomingEvents st nowMs g.delRes).1 0).trace := rfl
  have hstate : (reconcile st kept g nowMs).state
      = (insertLoop g.insRes kept (deleteUpcomingEvents st nowMs g.delRes).1 0).state := rfl
  have hsc : (reconcile st kept g nowMs).successCount
      = (insertLoop g.insRes kept (deleteUpcomingEvents st nowMs g.delRes).1 0).successCount := rfl
  have hfc : (reconcile st kept g nowMs).failureCount
      = (insertLoop g.insRes kept (deleteUpcomingEvents st nowMs g.delRes).1 0).failureCount := rfl
  have hdtrace : (deleteUpcomingEvents st nowMs g.delRes).2
      = (listFutureEvents st.entries nowMs).map
          (fun e => CalOp.deleteAttempt e.id (g.delRes e.id)) := by
    unfold deleteUpcomingEvents
    dsimp only
    rw [deleteLoop_trace]
  have hdentries : (deleteUpcomingEvents st nowMs g.delRes).1.entries
      = st.entries.filter
          (fun x => !((listFutureEvents st.entries nowMs).any
            (fun d => (g.delRes d.id).isNone && d.id == x.id))) := by
    unfold deleteUpcomingEvents
    dsimp only
    rw [deleteLoop_entries]
  have hdnext : (deleteUpcomingEvents st nowMs g.delRes).1.nextId = st.nextId := rfl
  refine ⟨?_, ?_, ?_, ?_, ?_, ?_⟩
  · rw [htrace, List.map_append, hdtrace, List.map_map, insertLoop_trace_kinds]
    rfl
  · rw [hsc, hfc]
    exact (insertLoop_counts g.insRes kept _ 0).1
  · rw [hfc, (insertLoop_counts g.insRes kept _ 0).2]
    congr 1
    apply List.filter_congr
    intro j _
    rw [Nat.zero_add]
  · intro s msg hnt hmem
    rw [htrace] at hmem
    rcases List.mem_append.mp hmem with h2 | h2
    · exfalso
      rw [hdtrace] at h2
      rcases List.mem_map.mp h2 with ⟨e, -, he⟩
      exact CalOp.noConfusion he
    · rw [insertLoop_hint g.insRes kept _ 0 s msg hnt h2]
      exact hasAuthHint_iff msg
  · intro j hj hok
    rw [hstate]
    exact insertLoop_mem_of_ok g.insRes kept _ 0 j hj (by rwa [Nat.zero_add])
  · intro hfresh e hmem hfut hdel hfinal
    rw [hstate] at hfinal
    rcases insertLoop_mem_old_or_fresh g.insRes kept _ 0 e hfinal with h2 | h2
    · rw [hdentries] at h2
      have hpred := (List.mem_filter.mp h2).2
      rw [Bool.not_eq_eq_eq_not, Bool.not_true, List.any_eq_false] at hpred
      refine hpred e ?_ ?_
      · exact List.mem_filter.mpr ⟨hmem, by simpa using hfut⟩
      · rw [hdel]
        simp
    · rw [hdnext] at h2
      have := hfresh e hmem
      omega

/-- C8 witness: with the delete of entry 2 failing and the insert at
position 1 failing, the insert at position 0 still succeeds and persists in
the final store. -/
theorem c8_witness :
    ∃ en ∈ (reconcile ⟨[⟨1, "Old1".data, 100⟩, ⟨2, "Old2".data, 200⟩], 10⟩
        [⟨"New1".data, 150, 250⟩, ⟨"New2".data, 260, 400⟩]
        ⟨fun id => if id = 2 then some ("boom".data) else none,
          fun j => if j = 1 then some ("unauthorized token".data) else none⟩ 50).state.entries,
      en.summary = "New1".data ∧ en.startMs = 150 :=
  (c8_failure_isolation ⟨[⟨1, "Old1".data, 100⟩, ⟨2, "Old2".data, 200⟩], 10⟩
      [⟨"New1".data, 150, 250⟩, ⟨"New2".data, 260, 400⟩]
      ⟨fun id => if id = 2 then some ("boom".data) else none,
        fun j => if j = 1 then some ("unauthorized token".data) else none⟩
      50).2.2.2.2.1 0 (by decide) (by decide)

/-! ## The guarded run (src/updateGCal.js lines 130-262) -/

/-- The calendar-affecting part of `connectToCalendar`: parse and filter the
schedule rows, return early (no listing, no delete, no insert) when nothing
is left to create — before and again after deduplication — and otherwise run
the reconciliation pass.  The dedup key is the `(summary, start)` pair,
which the string key `summary + '|' + start.dateTime` of line 215 determines
injectively (`append_bar_inj`). -/
def connectToCalendarRun (rows : List ScheduleRow) (today : JsString)
    (rmap : JsString → Option JsString) (st : CalState) (g : CalOracle) (nowMs : Nat) :
    ReconcileResult :=
  let eventsToCreate := rows.filterMap (processRow today rmap)
  if eventsToCreate.isEmpty then ⟨st, 0, 0, []⟩
  else
    let uniqueEventsToCreate :=
      deduplicateRows eventsToCreate (fun e => (e.summary, e.startMs))
    if uniqueEventsToCreate.isEmpty then ⟨st, 0, 0, []⟩
    else reconcile st uniqueEventsToCreate g nowMs

theorem deduplicateRows_eq_nil_iff {T K : Type} [DecidableEq K]
    (rows : List T) (keyFn : T → K) :
    deduplicateRows rows keyFn = [] ↔ rows = [] := by
  cases rows with
  | nil => simp [deduplicateRows, deduplicateRowsGo]
  | cons r rs =>
    constructor
    · intro h
      exfalso
      unfold deduplicateRows deduplicateRowsGo at h
      rw [if_neg (by simp)] at h
      exact List.noConfusion h
    · intro h
      exact List.noConfusion h

/-- C10: if validation and deduplication leave zero events to create, the run
returns before any calendar interaction — the store is left exactly as it
was, no delete or insert is attempted (the trace is empty) and the counts are
zero; an empty or fully invalid source can never wipe the future calendar. -/
theorem c10_empty_guard :
    ∀ (rows : List ScheduleRow) (today : JsString) (rmap : JsString → Option JsString)
      (st : CalState) (g : CalOracle) (nowMs : Nat),
      (deduplicateRows (rows.filterMap (processRow today rmap))
          (fun e => (e.summary, e.startMs))).isEmpty = true →
      connectToCalendarRun rows today rmap st g nowMs = ⟨st, 0, 0, []⟩ := by
  intro rows today rmap st g nowMs h
  rw [List.isEmpty_iff, deduplicateRows_eq_nil_iff] at h
  unfold connectToCalendarRun
  rw [if_pos (List.isEmpty_iff.mpr h)]

/-- C10 witness: a source whose only row is missing all required fields
produces no events, and the run leaves a nonempty calendar untouched with an
empty mutation trace. -/
theorem c10_witness :
    connectToCalendarRun [⟨[], [], [], [], []⟩] ("2025-05-02".data) (fun _ => none)
      ⟨[⟨1, "Old1".data, 100⟩], 7⟩ allOk 50
      = ⟨⟨[⟨1, "Old1".data, 100⟩], 7⟩, 0, 0, []⟩ :=
  c10_empty_guard [⟨[], [], [], [], []⟩] ("2025-05-02".data) (fun _ => none)
    ⟨[⟨1, "Old1".data, 100⟩], 7⟩ allOk 50 (by decide)

/-- C8 counterexample: a single failing delete call is logged but neither
counted nor given troubleshooting hints.  Here the only future entry's
delete fails with a message containing the known authentication-error
substring `unauthorized`, yet the run's failure counter — `failureCount` of
src/updateGCal.js line 231, which only the insert catch increments — stays 0,
and the trace records the delete failure as a bare log entry with no
troubleshooting-hint output (the hint block of lines 244-259 exists only in
the insert catch). -/
theorem c8_counterexample :
    (reconcile ⟨[⟨1, "Old1".data, 100⟩], 10⟩ [⟨"New1".data, 150, 250⟩]
        ⟨fun _ => some ("unauthorized token".data), fun _ => none⟩ 50).failureCount = 0 ∧
    (reconcile ⟨[⟨1, "Old1".data, 100⟩], 10⟩ [⟨"New1".data, 150, 250⟩]
        ⟨fun _ => some ("unauthorized token".data), fun _ => none⟩ 50).trace
      = [CalOp.deleteAttempt 1 (some ("unauthorized token".data)),
          CalOp.insertAttempt ("New1".data) none false] ∧
    hasAuthHint ("unauthorized token".data) = true := by
  refine ⟨by decide, by decide, by decide⟩
